import Mathlib

/-!
# Verification of the casadi sparsity-pattern engine

Shallow embedding of `src/casadi/core/sparsity.cpp` (class `Sparsity`):
the compressed-column sparsity pattern data model, the canonicalization
cache (`assign_cached`), constructors (`dense`, `triplet`, `compressed`,
the raw-array constructor), structural edits (`add_nz`), element accessors
(`row(el)`, `colind(cc)`) and concatenation/split (`horzcat`/`horzsplit`).

C++ `std::vector<int>` arrays are embedded as `List Nat` (all stored
indices are nonnegative); machine-int arguments that may be negative
(element accessors, `add_nz` indices) are taken as `Int`.  Fallible code
(`casadi_assert`, thrown exceptions) is embedded with `Option`/`Except`.

Members of the class `SparsityInternal` (not part of the source tree:
only its callers are) are modelled from the spec where needed; each such
definition carries a doc comment starting `Modelled from the spec:`.
-/

namespace Casadi

/-- The data held by one sparsity pattern (`SparsityInternal`):
dimensions plus compressed-column structure.  `colind` has length
`ncol+1`; `row` lists the row indices column by column. -/
structure Pattern where
  nrow : Nat
  ncol : Nat
  colind : List Nat
  row : List Nat
deriving Repr, DecidableEq

/-- The `EmptySparsity` singleton (0x0), `sparsity.cpp` lines 40-46:
`colind = {0}`, no rows. -/
def getEmpty : Pattern := ⟨0, 0, [0], []⟩

/-- The `ScalarSparsity` singleton (dense 1x1), lines 48-55:
`colind = {0, 1}`, `row = {0}`. -/
def getScalar : Pattern := ⟨1, 1, [0, 1], [0]⟩

/-- The `ScalarSparseSparsity` singleton (structurally empty 1x1),
lines 57-64: `colind = {0, 0}`; the row array it passes is never read
since `colind[1] = 0`, so no row indices are stored. -/
def getScalarSparse : Pattern := ⟨1, 1, [0, 0], []⟩

/-- Modelled from the spec: `SparsityInternal::is_equal` is not in the
source tree; the spec requires "full structural equality (dimension and
array equality, not hash equality)". -/
def isEqualArr (p : Pattern) (nrow ncol : Nat) (colind row : List Nat) : Bool :=
  p.nrow == nrow && p.ncol == ncol && p.colind == colind && p.row == row

/-- Modelled from the spec: `hash_combine` (used by `hash_sparsity`,
lines 790-798) is not in the source tree; the spec requires a
"deterministic structural hash over (rows, cols, col_ptr, row_idx)". -/
def hashSparsity (nrow ncol : Nat) (colind row : List Nat) : Nat :=
  (colind ++ row).foldl (fun h x => 31 * h + x + 1) (31 * nrow + ncol)

/-- The row indices of column `c`: the slice `[colind[c], colind[c+1])`
of the row array. -/
def colSliceA (colind row : List Nat) (c : Nat) : List Nat :=
  (row.drop (colind.getD c 0)).take (colind.getD (c + 1) 0 - colind.getD c 0)

/-- Boolean strict-increase test for a list of naturals. -/
def strictIncrB : List Nat → Bool
  | [] => true
  | [_] => true
  | a :: b :: rest => a < b && strictIncrB (b :: rest)

/-- The data-model invariant of a pattern (spec section 3): `colind` has
length `ncol+1`, starts at 0, is non-decreasing, `row` has length
`colind[ncol]`, and within each column the row indices are strictly
increasing and lie in `[0, nrow)`. -/
def validArr (nrow ncol : Nat) (colind row : List Nat) : Bool :=
  colind.length == ncol + 1 &&
  colind.getD 0 0 == 0 &&
  (List.range ncol).all (fun c => colind.getD c 0 ≤ colind.getD (c + 1) 0) &&
  row.length == colind.getD ncol 0 &&
  (List.range ncol).all (fun c =>
    strictIncrB (colSliceA colind row c) &&
    (colSliceA colind row c).all (fun r => r < nrow))

/-- A pattern value satisfying the data-model invariant. -/
def validPat (p : Pattern) : Bool := validArr p.nrow p.ncol p.colind p.row

/-! ## The canonicalization cache (`Sparsity::assign_cached`, lines 659-766)

The process-wide `CachingMap` (an `unordered_multimap` from structural
hash to `WeakRef`) is embedded as a list of entries carrying the hash
key, a liveness flag (the weak reference's `alive()`) and the pattern. -/

structure CacheEntry where
  key : Nat
  alive : Bool
  pat : Pattern
deriving Repr, DecidableEq

/-- The process-wide cache state. -/
abbrev CachingMap := List CacheEntry

/-- The inner `j` loop of `assign_cached` (lines 717-732): after a dead
entry was hit, scan the remaining entries of the equal range for an
alive pattern with full structural equality. -/
def scanAlive (nrow ncol : Nat) (colind row : List Nat) : List CacheEntry → Option Pattern
  | [] => none
  | e :: rest =>
    if e.alive && isEqualArr e.pat nrow ncol colind row then some e.pat
    else scanAlive nrow ncol colind row rest

/-- Outcome of probing the equal range in `assign_cached`. -/
inductive ProbeResult where
  | found (p : Pattern)
  | deadSlot
  | noMatch
deriving Repr, DecidableEq

/-- The outer loop of `assign_cached` over the equal range (lines
687-744): return the first alive entry that is structurally equal;
on the first dead entry, scan the rest (`scanAlive`) and otherwise
report the dead slot for reuse; if the range is exhausted, no match. -/
def probe (nrow ncol : Nat) (colind row : List Nat) : List CacheEntry → ProbeResult
  | [] => .noMatch
  | e :: rest =>
    if e.alive then
      if isEqualArr e.pat nrow ncol colind row then .found e.pat
      else probe nrow ncol colind row rest
    else
      match scanAlive nrow ncol colind row rest with
      | some p => .found p
      | none => .deadSlot

/-- Overwrite the first dead entry with the given key by a fresh alive
entry holding `p` (the `wref = *this` assignment, line 738). -/
def replaceFirstDead (key : Nat) (p : Pattern) : CachingMap → CachingMap
  | [] => []
  | e :: rest =>
    if e.key == key && !e.alive then ⟨key, true, p⟩ :: rest
    else e :: replaceFirstDead key p rest

/-- The hash table's bucket count, a function of the number of stored
entries (growth on insertion triggers the opportunistic sweep). -/
def bucketCount (m : CachingMap) : Nat := Nat.nextPowerOfTwo m.length

/-- `Sparsity::assign_cached` (lines 659-766): dimension-degenerate
shapes return the corresponding singleton without touching the cache;
otherwise hash, probe the equal range, and either reuse a structurally
equal alive entry, overwrite the first dead slot, or insert a fresh
pattern (sweeping dead entries when the bucket count changed). -/
def assignCached (cache : CachingMap) (nrow ncol : Nat) (colind row : List Nat) :
    Pattern × CachingMap :=
  if ncol = 0 ∧ nrow = 0 then (getEmpty, cache)
  else if ncol = 1 ∧ nrow = 1 then
    if colind.getD ncol 0 = 0 then (getScalarSparse, cache)
    else (getScalar, cache)
  else
    let h := hashSparsity nrow ncol colind row
    let eqRange := cache.filter (fun e => e.key == h)
    let res := if 0 < bucketCount cache then probe nrow ncol colind row eqRange
               else .noMatch
    match res with
    | .found p => (p, cache)
    | .deadSlot => (⟨nrow, ncol, colind, row⟩, replaceFirstDead h ⟨nrow, ncol, colind, row⟩ cache)
    | .noMatch =>
      let p : Pattern := ⟨nrow, ncol, colind, row⟩
      let cache2 := cache ++ [⟨h, true, p⟩]
      if bucketCount cache ≠ bucketCount cache2 then (p, cache2.filter (fun e => e.alive))
      else (p, cache2)

/-! ## Constructors and accessors -/

/-- `Sparsity::dense` (lines 800-814): `colind[cc] = cc*nrow` for
`0 <= cc <= ncol`, and column `cc` holds the rows `0, 1, ..., nrow-1`
(`row[rr+cc*nrow] = rr`).  Returns the `(colind, row)` arrays that the
constructor interns through `assign_cached`. -/
def denseArrays (nrow ncol : Nat) : List Nat × List Nat :=
  ((List.range (ncol + 1)).map (fun cc => cc * nrow),
   (List.range ncol).flatMap (fun _ => List.range nrow))

/-- The raw-pointer constructor
`Sparsity::Sparsity(int nrow, int ncol, const int* colind, const int* row)`
(lines 101-112): a null `colind` (here `none`) or `colind[ncol] == nrow*ncol`
coerces to `dense(nrow, ncol)` regardless of `row`; otherwise the first
`ncol+1` entries of `colind` and first `colind[ncol]` entries of `row` are
copied and interned through `assign_cached`. -/
def sparsityFromRaw (cache : CachingMap) (nrow ncol : Nat)
    (colind? : Option (List Nat)) (row : List Nat) : Pattern × CachingMap :=
  match colind? with
  | none => assignCached cache nrow ncol (denseArrays nrow ncol).1 (denseArrays nrow ncol).2
  | some colind =>
    if colind.getD ncol 0 = nrow * ncol then
      assignCached cache nrow ncol (denseArrays nrow ncol).1 (denseArrays nrow ncol).2
    else
      assignCached cache nrow ncol (colind.take (ncol + 1)) (row.take (colind.getD ncol 0))

/-- Modelled from the spec: `SparsityInternal::nnz` is not in the source
tree; the spec fixes `row_idx` to have length `col_ptr[cols]`, so the
number of structural nonzeros is the last column pointer. -/
def nnzP (p : Pattern) : Nat := p.colind.getD p.ncol 0

/-- `Sparsity::row(int el)` (lines 166-173): out-of-range access throws
`std::out_of_range`; embedded as `Except`.  A `const` accessor: the
pattern is not modified. -/
def rowEl (p : Pattern) (el : Int) : Except String Int :=
  if el < 0 ∨ (nnzP p : Int) ≤ el then .error "Sparsity::row: Index out of range"
  else .ok (p.row.getD el.toNat 0)

/-- `Sparsity::colind(int cc)` (lines 175-182): out-of-range access
throws `std::out_of_range`; embedded as `Except`.  A `const` accessor:
the pattern is not modified. -/
def colindEl (p : Pattern) (cc : Int) : Except String Int :=
  if cc < 0 ∨ (p.ncol : Int) < cc then .error "Sparsity::colind: Index out of range"
  else .ok (p.colind.getD cc.toNat 0)

/-- Modelled from the spec: `SparsityInternal::sp()` (behind
`Sparsity::compress`, lines 1076-1078) is not in the source tree; the
spec's compact array format is the flat sequence
`[rows, cols, col_ptr[0..cols], row_idx[0..nnz]]` "with an implicit
dense-pattern shortcut when `col_ptr[cols] == rows*cols` (in which case
`row_idx` may be omitted and regenerated)". -/
def compress (p : Pattern) : List Nat :=
  [p.nrow, p.ncol] ++ p.colind ++ (if nnzP p = p.nrow * p.ncol then [] else p.row)

/-- `Sparsity::compressed(const int* v)` (lines 1095-1113): read `nrow`,
`ncol`, the `ncol+1` column pointers; a dense pattern
(`nrow*ncol == colind[ncol]`) is regenerated through `dense`, otherwise
the row indices follow and the arrays are interned. -/
def compressedArr (cache : CachingMap) (v : List Nat) : Pattern × CachingMap :=
  let nrow := v.getD 0 0
  let ncol := v.getD 1 0
  let colind := (v.drop 2).take (ncol + 1)
  let nnz := colind.getD ncol 0
  if nrow * ncol = nnz then
    assignCached cache nrow ncol (denseArrays nrow ncol).1 (denseArrays nrow ncol).2
  else
    assignCached cache nrow ncol colind ((v.drop (2 + ncol + 1)).take nnz)

/-- `Sparsity::compressed(const std::vector<int>&)` (lines 1080-1093):
consistency asserts (length at least 2, then at least `2+ncol+1`, then
exactly the dense or the sparse length), then the array version. -/
def compressed (cache : CachingMap) (v : List Nat) : Option (Pattern × CachingMap) :=
  if 2 ≤ v.length ∧ 2 + v.getD 1 0 + 1 ≤ v.length ∧
     ((v.length = 2 + v.getD 1 0 + 1 ∧ v.getD 0 0 * v.getD 1 0 = v.getD (2 + v.getD 1 0) 0) ∨
      v.length = 2 + v.getD 1 0 + 1 + v.getD (2 + v.getD 1 0) 0) then
    some (compressedArr cache v)
  else none

/-- The insertion-point loop of `add_nz` (lines 221-229): scan the
column slice from the front, returning the running index together with
whether the element was found (`row[ind] == rr`) before the first larger
entry. -/
def findPos (rr : Nat) : List Nat → Nat → Nat × Bool
  | [], ind => (ind, false)
  | x :: xs, ind =>
    if x = rr then (ind, true)
    else if rr < x then (ind, false)
    else findPos rr xs (ind + 1)

/-- The column-pointer update of `add_nz`
(`for (int c=cc; c<size2; ++c) colindv[c+1]++`): increment every column
pointer at an index above `cc`. -/
def bumpColind (cc : Nat) (colind : List Nat) : List Nat :=
  colind.take (cc + 1) ++ (colind.drop (cc + 1)).map (· + 1)

/-- `Sparsity::add_nz` (lines 194-239): normalize negative indices by
adding the corresponding dimension, check bounds (`casadi_assert`:
embedded as `Option`), quick return on dense patterns, quick append when
the entry belongs at the structural end, otherwise search the column and
insert in sorted order.  Returns the compressed index and the pattern
bound to the handle after the call (`assign_cached` rebinds the handle
to a structurally equal pattern, so the arrays are the computed ones). -/
def addNz (p : Pattern) (rr0 cc0 : Int) : Option (Nat × Pattern) :=
  let rr1 := if rr0 < 0 then rr0 + p.nrow else rr0
  let cc1 := if cc0 < 0 then cc0 + p.ncol else cc0
  if 0 ≤ rr1 ∧ rr1 < p.nrow ∧ 0 ≤ cc1 ∧ cc1 < p.ncol then
    let rr := rr1.toNat
    let cc := cc1.toNat
    if nnzP p = p.nrow * p.ncol then
      some (rr + cc * p.nrow, p)
    else if p.colind.getD cc 0 = nnzP p ∨
        (p.colind.getD (cc + 1) 0 = nnzP p ∧ p.row.getD (nnzP p - 1) 0 < rr) then
      some (nnzP p, ⟨p.nrow, p.ncol, bumpColind cc p.colind, p.row ++ [rr]⟩)
    else
      match findPos rr (colSliceA p.colind p.row cc) (p.colind.getD cc 0) with
      | (ind, true) => some (ind, p)
      | (ind, false) =>
        some (ind, ⟨p.nrow, p.ncol, bumpColind cc p.colind,
          p.row.take ind ++ rr :: p.row.drop ind⟩)
  else none

/-! ## Triplet construction (`Sparsity::triplet`, lines 915-1062) -/

/-- Boolean chain test: every adjacent pair satisfies `f`. -/
def chainB {α : Type} (f : α → α → Bool) : List α → Bool
  | [] => true
  | [_] => true
  | a :: b :: rest => f a b && chainB f (b :: rest)

/-- Strict (column, row) lexicographic order on triplet entries. -/
def lexLtB (a b : Nat × Nat) : Bool :=
  decide (a.1 < b.1) || (decide (a.1 = b.1) && decide (a.2 < b.2))

/-- The `(col, row)` sequence is strictly ascending in (column, row)
lexicographic order: sorted by column then row, duplicate-free. -/
def strictColRowOrdered (row col : List Nat) : Bool :=
  chainB lexLtB (List.zip col row)

/-- The `perfectly_ordered` detection loop of `Sparsity::triplet`
(lines 929-941): fold over the `(col, row)` pairs carrying
`(perfectly_ordered, last_col, last_row)` with `last_col = last_row = -1`,
conjoining `col[k]<last_col || (col[k]==last_col && row[k]<=last_row)`
at every step. -/
def perfectlyOrdered (row col : List Nat) : Bool :=
  ((List.zip col row).foldl
    (fun st p =>
      (st.1 && (decide ((p.1 : Int) < st.2.1) ||
        (decide ((p.1 : Int) = st.2.1) && decide ((p.2 : Int) ≤ st.2.2))),
       ((p.1 : Int), (p.2 : Int))))
    (true, -1, -1)).1

/-- The fast-path column-offset loop (lines 949-954): for each column
`i`, advance `el` over the entries with `col[el] == i` and record the
offset. -/
def fastColind (col : List Nat) (ncol : Nat) : List Nat :=
  ((List.range ncol).foldl
    (fun (st : List Nat × Nat) i =>
      let el := st.2 + ((col.drop st.2).takeWhile (fun c => decide (c = i))).length
      (st.1 ++ [el], el))
    ([0], 0)).1

/-- The count-tally loops (`rowcount[*it+1]++`, lines 973-977, and
`colcount[col[*it]+1]++`, lines 991-995): bump the counter at
`key + 1` for every key. -/
def tallyNext : List Nat → List Nat → List Nat
  | [], acc => acc
  | k :: ks, acc => tallyNext ks (acc.set (k + 1) (acc.getD (k + 1) 0 + 1))

/-- The in-place cumulative sums (`a[i+1] += a[i]` for `i = 0..n-1`,
lines 979-982 and 997-1000). -/
def cumsumLoop (n : Nat) (a : List Nat) : List Nat :=
  (List.range n).foldl (fun a i => a.set (i + 1) (a.getD (i + 1) 0 + a.getD i 0)) a

/-- The placement loop of one counting-sort pass
(`mapping2[rowcount[row[k]]++] = k`, lines 984-988, and
`mapping1[colcount[col[*it]]++] = *it`, lines 1002-1006): the state is
the position vector and the output vector. -/
def placeLoop (key : Nat → Nat) : List Nat → List Nat → List Nat → List Nat × List Nat
  | pos, out, [] => (pos, out)
  | pos, out, k :: ks =>
    placeLoop key (pos.set (key k) (pos.getD (key k) 0 + 1))
      (out.set (pos.getD (key k) 0) k) ks

/-- One complete counting-sort pass by `key` into `nb` buckets: tally,
cumulative sums, placement. -/
def countingSort (key : Nat → Nat) (nb : Nat) (idxs : List Nat) : List Nat :=
  (placeLoop key (cumsumLoop nb (tallyNext (idxs.map key) (List.replicate (nb + 1) 0)))
    (List.replicate idxs.length 0) idxs).2

/-- The duplicate-collapsing inner loop (lines 1019-1047): walk the
entries of one column, emitting the row only when it differs from
`j_prev` (initially `-1`). -/
def dedupSeg (rowOf : Nat → Nat) : Int → List Nat → List Nat
  | _, [] => []
  | jprev, e :: es =>
    if (rowOf e : Int) ≠ jprev then rowOf e :: dedupSeg rowOf (rowOf e) es
    else dedupSeg rowOf (rowOf e) es

/-- The outer column loop (lines 1015-1051): for each column in order,
consume the sorted entries belonging to it, collapse duplicate rows, and
record the running offset (`r_colind[i+1] = r_el`).  Returns the row
array and the column-offset tail `r_colind[1..ncol]`. -/
def colsLoop (colOf rowOf : Nat → Nat) : List Nat → List Nat → List Nat × List Nat
  | [], _ => ([], [])
  | i :: is, it =>
    let seg := it.takeWhile (fun e => decide (colOf e = i))
    let rest := it.dropWhile (fun e => decide (colOf e = i))
    let rows := dedupSeg rowOf (-1) seg
    let r := colsLoop colOf rowOf is rest
    (rows ++ r.1, rows.length :: r.2.map (· + rows.length))

/-- `Sparsity::triplet` (lines 915-1062), the pattern part (the
`mapping` out-parameter is not modelled): dimension and bound asserts,
the `perfectly_ordered` fast path, and otherwise the two counting-sort
passes (by row, then stably by column) followed by the duplicate-
collapsing column loop.  Returns the `(colind, row)` arrays interned by
the final `Sparsity` constructor call. -/
def tripletArrays (nrow ncol : Nat) (row col : List Nat) : Option (List Nat × List Nat) :=
  if row.length = col.length ∧ (∀ x ∈ col, x < ncol) ∧ (∀ x ∈ row, x < nrow) then
    if perfectlyOrdered row col then
      some (fastColind col ncol, row)
    else
      let rowOf := fun k => row.getD k 0
      let colOf := fun k => col.getD k 0
      let mapping2 := countingSort rowOf nrow (List.range row.length)
      let mapping1 := countingSort colOf ncol mapping2
      let r := colsLoop colOf rowOf (List.range ncol) mapping1
      some (0 :: r.2, r.1)
  else none

/-- The canonical compressed form of a list of `(row, col)` pairs,
following the spec's words: "construction sorts by (column, row), merges
exact duplicates (duplicates collapse to a single structural entry)" —
one entry per distinct pair, grouped by column, rows ascending. -/
def canonicalArrays (nrow ncol : Nat) (pairs : List (Nat × Nat)) : List Nat × List Nat :=
  ((List.range (ncol + 1)).map (fun c =>
      (((List.range c).map (fun i =>
        ((List.range nrow).filter (fun r => decide ((r, i) ∈ pairs))).length)).sum)),
   (List.range ncol).flatMap (fun c =>
      (List.range nrow).filter (fun r => decide ((r, c) ∈ pairs))))

/-! ## Concatenation and splitting -/

/-- The triplet-accumulation loop of `Sparsity::horzcat` (lines
1146-1165): for each column `cc` of a pattern, push `(row[k], cc +
ret_ncol)` for every entry of the column. -/
def patTriplets (p : Pattern) (colOffset : Nat) : List (Nat × Nat) :=
  (List.range p.ncol).flatMap (fun cc =>
    (colSliceA p.colind p.row cc).map (fun r => (r, cc + colOffset)))

/-- Accumulate the triplets of a pattern list with running column
offsets. -/
def horzcatTrips : List Pattern → Nat → List (Nat × Nat)
  | [], _ => []
  | p :: ps, off => patTriplets p off ++ horzcatTrips ps (off + p.ncol)

/-- `Sparsity::horzcat` (lines 1127-1167): quick returns for zero or one
operand; otherwise `ret_nrow` is the first nonzero row count, every
operand must have that row count or zero rows (`casadi_assert`), and the
result is built by one `triplet` call over the accumulated entries. -/
def horzcat (sp : List Pattern) : Option Pattern :=
  match sp with
  | [] => some ⟨0, 0, [0], []⟩
  | [p] => some p
  | _ =>
    let retNrow := (((sp.find? (fun p => decide (p.nrow ≠ 0))).map Pattern.nrow).getD 0)
    if ∀ p ∈ sp, p.nrow = retNrow ∨ p.nrow = 0 then
      let trips := horzcatTrips sp 0
      let retNcol := (sp.map Pattern.ncol).sum
      (tripletArrays retNrow retNcol (trips.map Prod.fst) (trips.map Prod.snd)).map
        (fun rc => ⟨retNrow, retNcol, rc.1, rc.2⟩)
    else none

/-- Modelled from the spec: `isMonotone` (a vector-tools helper asserted
by `horzsplit`, line 1290) is not in the source tree.  The offsets are
required to be monotonically nondecreasing; the spec's round-trip
property (section 8) quantifies over any compatible operands, including
zero-column ones, so equal adjacent offsets are accepted. -/
def isMonotoneB (l : List Nat) : Bool := chainB (fun a b => decide (a ≤ b)) l

/-- `Sparsity::horzsplit` (lines 1282-1327): validate the offsets
(nonempty, first 0, last equals the column count, monotone), then slice
the compressed arrays of each output directly: column pointers
`colind_x[first..last]` rebased to start at 0, rows
`row_x[colind_x[first]..colind_x[last])`. -/
def horzsplit (x : Pattern) (offset : List Nat) : Option (List Pattern) :=
  if 1 ≤ offset.length ∧ offset.getD 0 0 = 0 ∧
     offset.getD (offset.length - 1) 0 = x.ncol ∧ isMonotoneB offset = true then
    some ((List.range (offset.length - 1)).map (fun i =>
      let first := offset.getD i 0
      let last := offset.getD (i + 1) 0
      let base := x.colind.getD first 0
      let colind0 := (x.colind.drop first).take (last - first + 1)
      let colind := 0 :: (colind0.drop 1).map (fun v => v - base)
      let row := (x.row.drop base).take (x.colind.getD last 0 - base)
      ⟨x.nrow, last - first, colind, row⟩))
  else none

/-! ## Basic facts about the cache -/

theorem isEqualArr_iff {p : Pattern} {nrow ncol : Nat} {colind row : List Nat} :
    isEqualArr p nrow ncol colind row = true ↔ p = ⟨nrow, ncol, colind, row⟩ := by
  cases p
  simp [isEqualArr, Bool.and_eq_true, Pattern.mk.injEq, and_assoc]

theorem scanAlive_some {nrow ncol : Nat} {colind row : List Nat} {l : List CacheEntry}
    {p : Pattern} (h : scanAlive nrow ncol colind row l = some p) :
    p = ⟨nrow, ncol, colind, row⟩ := by
  induction l with
  | nil => simp [scanAlive] at h
  | cons e rest ih =>
    simp only [scanAlive] at h
    split at h
    · rename_i hcond
      obtain ⟨-, heq⟩ := Bool.and_eq_true _ _ |>.mp hcond
      cases h
      exact isEqualArr_iff.mp heq
    · exact ih h

theorem probe_found {nrow ncol : Nat} {colind row : List Nat} {l : List CacheEntry}
    {p : Pattern} (h : probe nrow ncol colind row l = .found p) :
    p = ⟨nrow, ncol, colind, row⟩ := by
  induction l with
  | nil => simp [probe] at h
  | cons e rest ih =>
    simp only [probe] at h
    split at h
    · split at h
      · rename_i heq
        cases h
        exact isEqualArr_iff.mp heq
      · exact ih h
    · split at h
      · rename_i q hq
        cases h
        exact scanAlive_some hq
      · cases h

/-! ## Degenerate-shape consequences of the invariant -/

theorem validArr_decomp {nrow ncol : Nat} {colind row : List Nat}
    (h : validArr nrow ncol colind row = true) :
    colind.length = ncol + 1 ∧ colind.getD 0 0 = 0 ∧
    (∀ c < ncol, colind.getD c 0 ≤ colind.getD (c + 1) 0) ∧
    row.length = colind.getD ncol 0 ∧
    (∀ c < ncol, strictIncrB (colSliceA colind row c) = true ∧
      ∀ r ∈ colSliceA colind row c, r < nrow) := by
  simp only [validArr, Bool.and_eq_true, beq_iff_eq, List.all_eq_true, List.mem_range,
    decide_eq_true_eq] at h
  obtain ⟨⟨⟨⟨h1, h2⟩, h3⟩, h4⟩, h5⟩ := h
  exact ⟨h1, h2, h3, h4, fun c hc => ⟨(h5 c hc).1, fun r hr => (h5 c hc).2 r hr⟩⟩

theorem validArr_empty {colind row : List Nat} (h : validArr 0 0 colind row = true) :
    colind = [0] ∧ row = [] := by
  obtain ⟨h1, h2, -, h4, -⟩ := validArr_decomp h
  match colind with
  | [a] =>
    simp only [List.getD_cons_zero] at h2 h4
    subst h2
    exact ⟨rfl, List.length_eq_zero.mp h4⟩
  | [] => exact absurd h1 (by simp)
  | a :: b :: t => exact absurd h1 (by simp)

theorem validArr_scalarSparse {colind row : List Nat}
    (h : validArr 1 1 colind row = true) (h0 : colind.getD 1 0 = 0) :
    colind = [0, 0] ∧ row = [] := by
  obtain ⟨h1, h2, -, h4, -⟩ := validArr_decomp h
  match colind with
  | [a, b] =>
    simp only [List.getD_cons_zero, List.getD_cons_succ] at h2 h4 h0
    subst h2 h0
    exact ⟨rfl, List.length_eq_zero.mp h4⟩
  | [] => exact absurd h1 (by simp)
  | [a] => exact absurd h1 (by simp)
  | a :: b :: c :: t => exact absurd h1 (by simp)

theorem strictIncr_lt_one_len {l : List Nat} (hs : strictIncrB l = true)
    (hb : ∀ x ∈ l, x < 1) : l.length ≤ 1 := by
  match l with
  | [] => simp
  | [a] => simp
  | a :: b :: rest =>
    exfalso
    simp only [strictIncrB, Bool.and_eq_true, decide_eq_true_eq] at hs
    have hab : a < b := hs.1
    have hb1 : b < 1 := hb b (by simp)
    omega

theorem validArr_scalarDense {colind row : List Nat}
    (h : validArr 1 1 colind row = true) (h0 : colind.getD 1 0 ≠ 0) :
    colind = [0, 1] ∧ row = [0] := by
  obtain ⟨h1, h2, -, h4, h5⟩ := validArr_decomp h
  match colind with
  | [a, b] =>
    simp only [List.getD_cons_zero, List.getD_cons_succ] at h2 h4 h0
    subst h2
    have hslice : colSliceA [0, b] row 0 = row := by
      simp only [colSliceA, List.getD_cons_zero, List.getD_cons_succ, List.drop_zero,
        Nat.sub_zero]
      exact List.take_of_length_le (le_of_eq h4)
    obtain ⟨hs, hbnd⟩ := h5 0 (by norm_num)
    rw [hslice] at hs hbnd
    have hlen : row.length ≤ 1 := strictIncr_lt_one_len hs hbnd
    have hb : b = 1 := by omega
    subst hb
    refine ⟨rfl, ?_⟩
    match row with
    | [x] =>
      have hx : x < 1 := hbnd x (by simp)
      have hx0 : x = 0 := by omega
      rw [hx0]
    | [] => exact absurd h4 (by simp)
    | x :: y :: t => exact absurd h4 (by simp)
  | [] => exact absurd h1 (by simp)
  | [a] => exact absurd h1 (by simp)
  | a :: b :: c :: t => exact absurd h1 (by simp)

/-- The central interning lemma: on any cache state, `assign_cached` on a
valid structure binds the handle to a pattern whose dimensions and arrays
are exactly the requested ones — a cached candidate is only ever reused
after the full structural-equality check, so hash collisions can never
leak a different structure. -/
theorem assignCached_fst (cache : CachingMap) (nrow ncol : Nat) (colind row : List Nat)
    (h : validArr nrow ncol colind row = true) :
    (assignCached cache nrow ncol colind row).1 = ⟨nrow, ncol, colind, row⟩ := by
  unfold assignCached
  split
  · rename_i hcase
    obtain ⟨hc, hr⟩ := hcase
    subst hc hr
    obtain ⟨hci, hrw⟩ := validArr_empty h
    simp [getEmpty, hci, hrw]
  · split
    · rename_i hcase
      obtain ⟨hc, hr⟩ := hcase
      subst hc hr
      split
      · rename_i h0
        obtain ⟨hci, hrw⟩ := validArr_scalarSparse h h0
        simp [getScalarSparse, hci, hrw]
      · rename_i h0
        obtain ⟨hci, hrw⟩ := validArr_scalarDense h h0
        simp [getScalar, hci, hrw]
    · simp only []
      split
      · rename_i p hp
        split at hp
        · exact probe_found hp
        · cases hp
      · rfl
      · split <;> rfl

/-- Claim C1: interning is idempotent and disambiguates by full structural
equality.  For every valid `(rows, cols, col_ptr, row_idx)` and every cache
state (in particular one already holding alive entries under the same
structural hash), constructing twice through `assign_cached` yields handles
that are structurally equal (`is_equal` holds, both to the input arrays and
to each other); since the cache state is arbitrary, a cached candidate
sharing the hash is returned only when its dimensions and both index
arrays equal the input — never on hash equality alone. -/
theorem interning_idempotent_structural
    (cache : CachingMap) (nrow ncol : Nat) (colind row : List Nat)
    (h : validArr nrow ncol colind row = true) :
    isEqualArr (assignCached cache nrow ncol colind row).1 nrow ncol colind row = true ∧
    isEqualArr (assignCached (assignCached cache nrow ncol colind row).2
      nrow ncol colind row).1 nrow ncol colind row = true ∧
    (assignCached cache nrow ncol colind row).1 =
      (assignCached (assignCached cache nrow ncol colind row).2 nrow ncol colind row).1 := by
  have h1 := assignCached_fst cache nrow ncol colind row h
  have h2 := assignCached_fst (assignCached cache nrow ncol colind row).2 nrow ncol colind row h
  exact ⟨isEqualArr_iff.mpr h1, isEqualArr_iff.mpr h2, h1.trans h2.symm⟩

theorem interning_idempotent_structural_witness :
    validArr 2 2 [0, 1, 2] [0, 1] = true ∧
    (isEqualArr (assignCached [] 2 2 [0, 1, 2] [0, 1]).1 2 2 [0, 1, 2] [0, 1] = true ∧
     isEqualArr (assignCached (assignCached [] 2 2 [0, 1, 2] [0, 1]).2
       2 2 [0, 1, 2] [0, 1]).1 2 2 [0, 1, 2] [0, 1] = true ∧
     (assignCached [] 2 2 [0, 1, 2] [0, 1]).1 =
       (assignCached (assignCached [] 2 2 [0, 1, 2] [0, 1]).2 2 2 [0, 1, 2] [0, 1]).1) :=
  ⟨by decide, interning_idempotent_structural [] 2 2 [0, 1, 2] [0, 1] (by decide)⟩

/-- Claim C4: the three dimension-degenerate shapes bypass hashing and the
cache entirely — for any cache state and any arrays, `assign_cached` on a
0x0 shape returns the `getEmpty` singleton, a 1x1 shape with `colind[1]=0`
returns the `getScalarSparse` singleton, and a 1x1 shape with `colind[1]=1`
returns the `getScalar` singleton, leaving the cache untouched; any two
constructions of the same trivial shape therefore yield the identical
singleton object. -/
theorem degenerate_shapes_bypass_cache
    (cache : CachingMap) (ci0 r0 ci1 r1 ci2 r2 : List Nat)
    (h1 : ci1.getD 1 0 = 0) (h2 : ci2.getD 1 0 = 1) :
    assignCached cache 0 0 ci0 r0 = (getEmpty, cache) ∧
    assignCached cache 1 1 ci1 r1 = (getScalarSparse, cache) ∧
    assignCached cache 1 1 ci2 r2 = (getScalar, cache) := by
  rw [List.getD_eq_getElem?_getD] at h1 h2
  refine ⟨by simp [assignCached], ?_, ?_⟩
  · simp [assignCached, h1]
  · simp [assignCached, h2]

theorem degenerate_shapes_bypass_cache_witness :
    ([0, 0] : List Nat).getD 1 0 = 0 ∧ ([0, 1] : List Nat).getD 1 0 = 1 ∧
    (assignCached [] 0 0 [0] [] = (getEmpty, []) ∧
     assignCached [] 1 1 [0, 0] [] = (getScalarSparse, []) ∧
     assignCached [] 1 1 [0, 1] [0] = (getScalar, [])) :=
  ⟨by decide, by decide,
   degenerate_shapes_bypass_cache [] [0] [] [0, 0] [] [0, 1] [0] (by decide) (by decide)⟩

/-! ## Dense patterns -/

theorem getD_map_range (f : Nat → Nat) {n c : Nat} (h : c < n) :
    ((List.range n).map f).getD c 0 = f c := by
  rw [List.getD_eq_getElem?_getD, List.getElem?_map, List.getElem?_range h]
  rfl

theorem flatMapConst_succ {α : Type} (l : List α) (n : Nat) :
    (List.range (n + 1)).flatMap (fun _ => l) = l ++ (List.range n).flatMap (fun _ => l) := by
  rw [List.range_succ_eq_map]
  simp [List.flatMap_map, Function.comp]

theorem flatMapConst_length {α : Type} (l : List α) :
    ∀ n, ((List.range n).flatMap (fun _ => l)).length = n * l.length := by
  intro n
  induction n with
  | zero => simp
  | succ m ih =>
    rw [flatMapConst_succ, List.length_append, ih]
    ring

theorem flatMapConst_drop {α : Type} (l : List α) :
    ∀ c n, c ≤ n → ((List.range n).flatMap (fun _ => l)).drop (c * l.length)
      = (List.range (n - c)).flatMap (fun _ => l) := by
  intro c
  induction c with
  | zero => intro n _; simp
  | succ d ih =>
    intro n hn
    match n, hn with
    | m + 1, _ =>
      have hd : d ≤ m := by omega
      rw [flatMapConst_succ, show (d + 1) * l.length = l.length + d * l.length by ring,
        ← List.drop_drop, List.drop_left, ih m hd]
      simp

theorem strictIncrB_iff {l : List Nat} : strictIncrB l = true ↔ l.Chain' (· < ·) := by
  induction l with
  | nil => simp [strictIncrB]
  | cons a t ih =>
    match t with
    | [] => simp [strictIncrB]
    | b :: t' =>
      simp only [strictIncrB, Bool.and_eq_true, decide_eq_true_eq, List.chain'_cons] at *
      exact and_congr Iff.rfl ih

theorem denseArrays_colind {nrow ncol c : Nat} (h : c ≤ ncol) :
    (denseArrays nrow ncol).1.getD c 0 = c * nrow :=
  getD_map_range _ (by omega)

theorem denseArrays_slice {nrow ncol c : Nat} (h : c < ncol) :
    colSliceA (denseArrays nrow ncol).1 (denseArrays nrow ncol).2 c = List.range nrow := by
  unfold colSliceA
  rw [denseArrays_colind (le_of_lt h), denseArrays_colind (by omega : c + 1 ≤ ncol),
    show (c + 1) * nrow - c * nrow = nrow by rw [Nat.succ_mul]; omega]
  show (((List.range ncol).flatMap (fun _ => List.range nrow)).drop (c * nrow)).take nrow = _
  rw [show c * nrow = c * (List.range nrow).length by simp,
    flatMapConst_drop _ c ncol (le_of_lt h)]
  match hm : ncol - c, (by omega : 0 < ncol - c) with
  | m + 1, _ =>
    rw [flatMapConst_succ]
    exact List.take_left' (by simp)

theorem validArr_dense (nrow ncol : Nat) :
    validArr nrow ncol (denseArrays nrow ncol).1 (denseArrays nrow ncol).2 = true := by
  simp only [validArr, Bool.and_eq_true, beq_iff_eq, List.all_eq_true, List.mem_range,
    decide_eq_true_eq]
  refine ⟨⟨⟨⟨by simp [denseArrays], ?_⟩, ?_⟩, ?_⟩, ?_⟩
  · rw [denseArrays_colind (Nat.zero_le ncol), Nat.zero_mul]
  · intro c hc
    rw [denseArrays_colind (by omega : c ≤ ncol), denseArrays_colind (by omega : c + 1 ≤ ncol)]
    exact Nat.mul_le_mul_right nrow (by omega)
  · rw [denseArrays_colind (le_refl ncol)]
    change ((List.range ncol).flatMap fun _ => List.range nrow).length = ncol * nrow
    rw [flatMapConst_length]
    simp
  · intro c hc
    rw [denseArrays_slice hc]
    constructor
    · exact strictIncrB_iff.mpr ((List.pairwise_lt_range nrow).chain')
    · simp

/-- Claim C9: the dense constructor produces the column-major dense
pattern — `dense(2,3)` yields `col_ptr=[0,2,4,6]`, `row_idx=[0,1,0,1,0,1]`,
`nnz=6`, and in general `col_ptr[c] = c*nrow` for `0 <= c <= ncol` while
every column holds the rows `0..nrow-1` in increasing order. -/
theorem dense_constructor (nrow ncol c : Nat) (hc : c ≤ ncol) :
    denseArrays 2 3 = ([0, 2, 4, 6], [0, 1, 0, 1, 0, 1]) ∧
    (denseArrays 2 3).2.length = 6 ∧
    (denseArrays nrow ncol).1.getD c 0 = c * nrow ∧
    (c < ncol →
      colSliceA (denseArrays nrow ncol).1 (denseArrays nrow ncol).2 c = List.range nrow) :=
  ⟨by decide, by decide, denseArrays_colind hc, fun h => denseArrays_slice h⟩

theorem dense_constructor_witness :
    (1 : Nat) ≤ 3 ∧
    (denseArrays 2 3 = ([0, 2, 4, 6], [0, 1, 0, 1, 0, 1]) ∧
     (denseArrays 2 3).2.length = 6 ∧
     (denseArrays 2 3).1.getD 1 0 = 1 * 2 ∧
     (1 < 3 → colSliceA (denseArrays 2 3).1 (denseArrays 2 3).2 1 = List.range 2)) :=
  ⟨by decide, dense_constructor 2 3 1 (by decide)⟩

/-- Claim C10: the raw-pointer constructor coerces to the canonical dense
pattern whenever `colind` is the null pointer or `colind[ncol] = nrow*ncol`,
regardless of the contents of the row array; only otherwise are the
supplied arrays used and interned through the cache. -/
theorem raw_constructor_dense_coercion (cache : CachingMap) (nrow ncol : Nat)
    (ci row row' ci2 row2 : List Nat)
    (hci : ci.getD ncol 0 = nrow * ncol)
    (hci2 : ci2.getD ncol 0 ≠ nrow * ncol)
    (hlen2 : ci2.length = ncol + 1) (hrow2 : row2.length = ci2.getD ncol 0)
    (hvalid2 : validArr nrow ncol ci2 row2 = true) :
    (sparsityFromRaw cache nrow ncol none row).1
      = ⟨nrow, ncol, (denseArrays nrow ncol).1, (denseArrays nrow ncol).2⟩ ∧
    (sparsityFromRaw cache nrow ncol (some ci) row).1
      = ⟨nrow, ncol, (denseArrays nrow ncol).1, (denseArrays nrow ncol).2⟩ ∧
    sparsityFromRaw cache nrow ncol (some ci) row
      = sparsityFromRaw cache nrow ncol (some ci) row' ∧
    (sparsityFromRaw cache nrow ncol (some ci2) row2).1 = ⟨nrow, ncol, ci2, row2⟩ := by
  have hdense := assignCached_fst cache nrow ncol (denseArrays nrow ncol).1
    (denseArrays nrow ncol).2 (validArr_dense nrow ncol)
  refine ⟨hdense, ?_, ?_, ?_⟩
  · simp only [sparsityFromRaw, if_pos hci]
    exact hdense
  · simp only [sparsityFromRaw, if_pos hci]
  · simp only [sparsityFromRaw, if_neg hci2]
    rw [List.take_of_length_le (le_of_eq hlen2), List.take_of_length_le (le_of_eq hrow2)]
    exact assignCached_fst cache nrow ncol ci2 row2 hvalid2

theorem raw_constructor_dense_coercion_witness :
    (([0, 2] : List Nat).getD 1 0 = 2 * 1 ∧ ([0, 1] : List Nat).getD 1 0 ≠ 2 * 1 ∧
     ([0, 1] : List Nat).length = 1 + 1 ∧ ([1] : List Nat).length = [0, 1].getD 1 0 ∧
     validArr 2 1 [0, 1] [1] = true) ∧
    ((sparsityFromRaw [] 2 1 none [9]).1 = ⟨2, 1, (denseArrays 2 1).1, (denseArrays 2 1).2⟩ ∧
     (sparsityFromRaw [] 2 1 (some [0, 2]) [9]).1
       = ⟨2, 1, (denseArrays 2 1).1, (denseArrays 2 1).2⟩ ∧
     sparsityFromRaw [] 2 1 (some [0, 2]) [9] = sparsityFromRaw [] 2 1 (some [0, 2]) [7] ∧
     (sparsityFromRaw [] 2 1 (some [0, 1]) [1]).1 = ⟨2, 1, [0, 1], [1]⟩) :=
  ⟨by decide, raw_constructor_dense_coercion [] 2 1 [0, 2] [9] [7] [0, 1] [1]
    (by decide) (by decide) (by decide) (by decide) (by decide)⟩

/-- Claim C8: the element accessors raise a distinguishable out-of-bounds
error rather than clamping — `row(el)` errors exactly when `el < 0` or
`el >= nnz()`, `colind(cc)` errors exactly when `cc < 0` or `cc > cols`;
for in-range arguments they return the corresponding array entry (both
are `const` accessors, so the pattern is unchanged). -/
theorem accessors_out_of_range (p : Pattern) (el cc : Int) :
    ((∃ m, rowEl p el = .error m) ↔ (el < 0 ∨ (nnzP p : Int) ≤ el)) ∧
    ((∃ m, colindEl p cc = .error m) ↔ (cc < 0 ∨ (p.ncol : Int) < cc)) ∧
    (0 ≤ el → el < (nnzP p : Int) → rowEl p el = .ok (p.row.getD el.toNat 0)) ∧
    (0 ≤ cc → cc ≤ (p.ncol : Int) → colindEl p cc = .ok (p.colind.getD cc.toNat 0)) := by
  refine ⟨?_, ?_, ?_, ?_⟩
  · unfold rowEl
    split
    · rename_i h; exact ⟨fun _ => h, fun _ => ⟨_, rfl⟩⟩
    · rename_i h
      constructor
      · rintro ⟨m, hm⟩; cases hm
      · intro hc; exact absurd hc h
  · unfold colindEl
    split
    · rename_i h; exact ⟨fun _ => h, fun _ => ⟨_, rfl⟩⟩
    · rename_i h
      constructor
      · rintro ⟨m, hm⟩; cases hm
      · intro hc; exact absurd hc h
  · intro h1 h2
    rw [rowEl, if_neg (by omega)]
  · intro h1 h2
    rw [colindEl, if_neg (by omega)]

theorem accessors_out_of_range_witness :
    ((0 : Int) ≤ 1 ∧ (1 : Int) < (nnzP getScalar : Int) + 1) ∧
    (((∃ m, rowEl getScalar 1 = .error m) ↔ ((1 : Int) < 0 ∨ (nnzP getScalar : Int) ≤ 1)) ∧
     ((∃ m, colindEl getScalar 1 = .error m) ↔ ((1 : Int) < 0 ∨ (getScalar.ncol : Int) < 1)) ∧
     ((0 : Int) ≤ 1 → (1 : Int) < (nnzP getScalar : Int) →
       rowEl getScalar 1 = .ok (getScalar.row.getD (1 : Int).toNat 0)) ∧
     ((0 : Int) ≤ 1 → (1 : Int) ≤ (getScalar.ncol : Int) →
       colindEl getScalar 1 = .ok (getScalar.colind.getD (1 : Int).toNat 0))) :=
  ⟨by decide, accessors_out_of_range getScalar 1 1⟩

/-! ## Valid patterns: general structure lemmas -/

theorem pairwise_lt_getElem_add_le {l : List Nat} (hp : l.Pairwise (· < ·)) :
    ∀ i j (hi : i < l.length) (hj : j < l.length), i ≤ j → l[i] + (j - i) ≤ l[j] := by
  have hstep := List.pairwise_iff_getElem.mp hp
  intro i j hi hj hij
  induction j with
  | zero =>
    have : i = 0 := by omega
    subst this
    simp
  | succ m ih =>
    rcases Nat.eq_or_lt_of_le hij with heq | hlt
    · subst heq; simp
    · have him : i ≤ m := by omega
      have hm : m < l.length := by omega
      have h1 := ih hm him
      have h2 := hstep m (m + 1) hm hj (by omega)
      omega

theorem strictIncr_length_le {l : List Nat} {n : Nat} (hp : l.Pairwise (· < ·))
    (hb : ∀ x ∈ l, x < n) : l.length ≤ n := by
  match l with
  | [] => simp
  | x :: t =>
    have hlen : 0 < (x :: t).length := by simp
    have hlast := pairwise_lt_getElem_add_le hp 0 ((x :: t).length - 1)
      (by omega) (by omega) (by omega)
    have hmem : (x :: t)[(x :: t).length - 1] ∈ x :: t := List.getElem_mem _
    have := hb _ hmem
    omega

theorem strictIncr_eq_range {l : List Nat} {n : Nat} (hp : l.Pairwise (· < ·))
    (hlen : l.length = n) (hb : ∀ x ∈ l, x < n) : l = List.range n := by
  apply List.ext_getElem (by simp [hlen])
  intro i hi hi'
  have hin : i < n := by omega
  have hlow := pairwise_lt_getElem_add_le hp 0 i (by omega) hi (by omega)
  have hup := pairwise_lt_getElem_add_le hp i (l.length - 1) hi (by omega) (by omega)
  have hlastmem : l[l.length - 1] ∈ l := List.getElem_mem _
  have hlast := hb _ hlastmem
  have h0mem : l[0] ∈ l := List.getElem_mem _
  rw [List.getElem_range]
  omega

theorem valid_colind_mono {nrow ncol : Nat} {colind row : List Nat}
    (h : validArr nrow ncol colind row = true) :
    ∀ c d, c ≤ d → d ≤ ncol → colind.getD c 0 ≤ colind.getD d 0 := by
  obtain ⟨-, -, hmono, -, -⟩ := validArr_decomp h
  intro c d hcd hd
  induction d with
  | zero =>
    have hc0 : c = 0 := by omega
    subst hc0
    exact le_refl _
  | succ m ih =>
    rcases Nat.eq_or_lt_of_le hcd with heq | hlt
    · subst heq; exact le_refl _
    · exact le_trans (ih (by omega) (by omega)) (hmono m (by omega))

theorem valid_slice_length {nrow ncol : Nat} {colind row : List Nat}
    (h : validArr nrow ncol colind row = true) {c : Nat} (hc : c < ncol) :
    (colSliceA colind row c).length = colind.getD (c + 1) 0 - colind.getD c 0 := by
  obtain ⟨-, -, -, hrow, -⟩ := validArr_decomp h
  have h1 : colind.getD (c + 1) 0 ≤ colind.getD ncol 0 :=
    valid_colind_mono h (c + 1) ncol (by omega) (le_refl _)
  simp only [colSliceA, List.length_take, List.length_drop]
  omega

theorem valid_row_take {nrow ncol : Nat} {colind row : List Nat}
    (h : validArr nrow ncol colind row = true) :
    ∀ c, c ≤ ncol → row.take (colind.getD c 0)
      = (List.range c).flatMap (fun i => colSliceA colind row i) := by
  obtain ⟨-, h0, -, -, -⟩ := validArr_decomp h
  intro c
  induction c with
  | zero => intro _; rw [h0]; simp
  | succ m ih =>
    intro hm
    have hmono := valid_colind_mono h m (m + 1) (by omega) hm
    rw [show colind.getD (m + 1) 0
        = colind.getD m 0 + (colind.getD (m + 1) 0 - colind.getD m 0) by omega,
      List.take_add, ih (by omega), List.range_succ, List.flatMap_append]
    simp [colSliceA]

theorem valid_row_flatten {nrow ncol : Nat} {colind row : List Nat}
    (h : validArr nrow ncol colind row = true) :
    row = (List.range ncol).flatMap (fun i => colSliceA colind row i) := by
  obtain ⟨-, -, -, hrow, -⟩ := validArr_decomp h
  rw [← valid_row_take h ncol (le_refl _), ← hrow, List.take_length]

theorem valid_slice_sorted {nrow ncol : Nat} {colind row : List Nat}
    (h : validArr nrow ncol colind row = true) {c : Nat} (hc : c < ncol) :
    (colSliceA colind row c).Pairwise (· < ·) ∧
    ∀ r ∈ colSliceA colind row c, r < nrow := by
  obtain ⟨-, -, -, -, hval⟩ := validArr_decomp h
  obtain ⟨hs, hb⟩ := hval c hc
  exact ⟨List.chain'_iff_pairwise.mp (strictIncrB_iff.mp hs), hb⟩

theorem valid_dense_colind {nrow ncol : Nat} {colind row : List Nat}
    (h : validArr nrow ncol colind row = true)
    (hd : colind.getD ncol 0 = nrow * ncol) :
    ∀ c, c ≤ ncol → colind.getD c 0 = c * nrow := by
  have hstep : ∀ c, c < ncol → colind.getD (c + 1) 0 ≤ colind.getD c 0 + nrow := by
    intro c hc
    have hlen := valid_slice_length h hc
    have hmono := valid_colind_mono h c (c + 1) (by omega) hc
    have hle : (colSliceA colind row c).length ≤ nrow :=
      strictIncr_length_le (valid_slice_sorted h hc).1 (valid_slice_sorted h hc).2
    omega
  have hup : ∀ c, c ≤ ncol → colind.getD c 0 ≤ c * nrow := by
    intro c
    induction c with
    | zero =>
      intro _
      obtain ⟨-, h0, -, -, -⟩ := validArr_decomp h
      rw [h0, Nat.zero_mul]
    | succ m ih =>
      intro hm
      have := hstep m (by omega)
      have := ih (by omega)
      have : (m + 1) * nrow = m * nrow + nrow := by ring
      omega
  have hlow : ∀ k c, c + k = ncol → colind.getD ncol 0 ≤ colind.getD c 0 + k * nrow := by
    intro k
    induction k with
    | zero => intro c hc; subst hc; simp
    | succ m ih =>
      intro c hc
      have h1 := ih (c + 1) (by omega)
      have h2 := hstep c (by omega)
      have : (m + 1) * nrow = m * nrow + nrow := by ring
      omega
  intro c hc
  have h1 := hup c hc
  have h2 := hlow (ncol - c) c (by omega)
  have h3 : nrow * ncol = c * nrow + (ncol - c) * nrow := by
    rw [← Nat.add_mul]
    rw [show c + (ncol - c) = ncol by omega]
    ring
  omega

theorem valid_dense_slice {nrow ncol : Nat} {colind row : List Nat}
    (h : validArr nrow ncol colind row = true)
    (hd : colind.getD ncol 0 = nrow * ncol) {c : Nat} (hc : c < ncol) :
    colSliceA colind row c = List.range nrow := by
  have hlen := valid_slice_length h hc
  have h1 := valid_dense_colind h hd c (by omega)
  have h2 := valid_dense_colind h hd (c + 1) (by omega)
  refine strictIncr_eq_range (valid_slice_sorted h hc).1 ?_ (valid_slice_sorted h hc).2
  rw [hlen, h1, h2, Nat.succ_mul]
  omega

theorem flatMap_congr_fn {α β : Type} {l : List α} {f g : α → List β}
    (h : ∀ x ∈ l, f x = g x) : l.flatMap f = l.flatMap g := by
  induction l with
  | nil => rfl
  | cons a t ih =>
    simp only [List.flatMap_cons, h a (by simp)]
    rw [ih (fun x hx => h x (by simp [hx]))]

theorem valid_dense_eq {p : Pattern} (hvp : validPat p = true)
    (hd : nnzP p = p.nrow * p.ncol) :
    p = ⟨p.nrow, p.ncol, (denseArrays p.nrow p.ncol).1, (denseArrays p.nrow p.ncol).2⟩ := by
  have h : validArr p.nrow p.ncol p.colind p.row = true := hvp
  obtain ⟨hlen, -, -, -, -⟩ := validArr_decomp h
  have hci : p.colind = (denseArrays p.nrow p.ncol).1 := by
    apply List.ext_getElem (by simp [hlen, denseArrays])
    intro i hi hi'
    have hii : i ≤ p.ncol := by omega
    have ha : p.colind.getD i 0 = i * p.nrow := valid_dense_colind h hd i hii
    have hb : (denseArrays p.nrow p.ncol).1.getD i 0 = i * p.nrow := denseArrays_colind hii
    rw [List.getD_eq_getElem _ _ hi] at ha
    rw [List.getD_eq_getElem _ _ hi'] at hb
    rw [ha, hb]
  have hrw : p.row = (denseArrays p.nrow p.ncol).2 := by
    have h1 := valid_row_flatten h
    rw [h1]
    exact flatMap_congr_fn (fun c hc => valid_dense_slice h hd (List.mem_range.mp hc))
  have hn : p = ⟨p.nrow, p.ncol, p.colind, p.row⟩ := rfl
  conv_lhs => rw [hn]
  rw [hci, hrw]

/-! ## Compact-array round trip -/

theorem getD_append_left {l₁ l₂ : List Nat} {n : Nat} (h : n < l₁.length) :
    (l₁ ++ l₂).getD n 0 = l₁.getD n 0 := by
  rw [List.getD_eq_getElem?_getD, List.getD_eq_getElem?_getD, List.getElem?_append_left h]

/-- Claim C7: compact-array round-trip.  For every valid pattern,
`compress` yields the flat sequence `[rows, cols, col_ptr[0..cols]]`
followed by `row_idx[0..nnz)` unless `col_ptr[cols] = rows*cols` (in
which case the row indices are omitted), and `compressed` applied to
that sequence reconstructs a structurally equal pattern, regenerating
the row indices of a dense pattern. -/
theorem compress_compressed_roundtrip (cache : CachingMap) (p : Pattern)
    (h : validPat p = true) :
    compress p = [p.nrow, p.ncol] ++ p.colind
      ++ (if nnzP p = p.nrow * p.ncol then [] else p.row) ∧
    (compressed cache (compress p)).map Prod.fst = some p := by
  have hv : validArr p.nrow p.ncol p.colind p.row = true := h
  obtain ⟨hlen, -, -, hrow, -⟩ := validArr_decomp hv
  refine ⟨rfl, ?_⟩
  have hc : compress p
      = p.nrow :: p.ncol :: (p.colind ++ if nnzP p = p.nrow * p.ncol then [] else p.row) := by
    simp [compress]
  set t : List Nat := if nnzP p = p.nrow * p.ncol then [] else p.row with ht
  have h1 : (compress p).getD 1 0 = p.ncol := by rw [hc]; rfl
  have h0 : (compress p).getD 0 0 = p.nrow := by rw [hc]; rfl
  have hlenv : (compress p).length = 2 + p.ncol + 1 + t.length := by
    rw [hc]; simp [hlen]; omega
  have hnnzidx : (compress p).getD (2 + p.ncol) 0 = nnzP p := by
    rw [hc, show 2 + p.ncol = p.ncol + 1 + 1 by omega, List.getD_cons_succ,
      List.getD_cons_succ, getD_append_left (by omega)]
    rfl
  have hdrop2 : (compress p).drop 2 = p.colind ++ t := by rw [hc]; rfl
  have htake : ((compress p).drop 2).take (p.ncol + 1) = p.colind := by
    rw [hdrop2]; exact List.take_left' hlen
  have hnnz2 : (((compress p).drop 2).take (p.ncol + 1)).getD p.ncol 0 = nnzP p := by
    rw [htake]; rfl
  have hguard : 2 ≤ (compress p).length ∧
      2 + (compress p).getD 1 0 + 1 ≤ (compress p).length ∧
      (((compress p).length = 2 + (compress p).getD 1 0 + 1 ∧
        (compress p).getD 0 0 * (compress p).getD 1 0
          = (compress p).getD (2 + (compress p).getD 1 0) 0) ∨
       (compress p).length
         = 2 + (compress p).getD 1 0 + 1 + (compress p).getD (2 + (compress p).getD 1 0) 0) := by
    rw [h0, h1, hnnzidx, hlenv]
    refine ⟨by omega, by omega, ?_⟩
    by_cases hd : nnzP p = p.nrow * p.ncol
    · left
      constructor
      · have : t = [] := by rw [ht, if_pos hd]
        rw [this]; simp
      · omega
    · right
      have heq : t = p.row := by rw [ht, if_neg hd]
      have hnd : nnzP p = p.colind.getD p.ncol 0 := rfl
      rw [heq, hnd]
      omega
  rw [compressed, if_pos hguard]
  simp only [Option.map_some', Option.some.injEq]
  simp only [compressedArr]
  simp only [h0, h1, htake, hnnz2]
  by_cases hd : nnzP p = p.nrow * p.ncol
  · have hcond : p.nrow * p.ncol = p.colind.getD p.ncol 0 := hd.symm
    rw [if_pos hcond]
    rw [assignCached_fst cache p.nrow p.ncol _ _ (validArr_dense p.nrow p.ncol)]
    exact (valid_dense_eq h hd).symm
  · have hcond : ¬(p.nrow * p.ncol = p.colind.getD p.ncol 0) := fun hx => hd hx.symm
    rw [if_neg hcond]
    have hdroprest : (compress p).drop (2 + p.ncol + 1) = p.row := by
      rw [hc, show 2 + p.ncol + 1 = p.ncol + 1 + 1 + 1 by omega, List.drop_succ_cons,
        List.drop_succ_cons, List.drop_left' hlen, ht, if_neg hd]
    rw [hdroprest, List.take_of_length_le (le_of_eq hrow)]
    rw [assignCached_fst cache p.nrow p.ncol p.colind p.row hv]

theorem compress_compressed_roundtrip_witness :
    validPat ⟨2, 2, [0, 1, 2], [0, 1]⟩ = true ∧
    (compress ⟨2, 2, [0, 1, 2], [0, 1]⟩ = [2, 2] ++ [0, 1, 2]
      ++ (if nnzP ⟨2, 2, [0, 1, 2], [0, 1]⟩ = 2 * 2 then [] else [0, 1]) ∧
     (compressed [] (compress ⟨2, 2, [0, 1, 2], [0, 1]⟩)).map Prod.fst
       = some ⟨2, 2, [0, 1, 2], [0, 1]⟩) :=
  ⟨by decide, compress_compressed_roundtrip [] ⟨2, 2, [0, 1, 2], [0, 1]⟩ (by decide)⟩

/-! ## Sorted insertion (`add_nz`) -/

theorem bumpColind_length (cc : Nat) (colind : List Nat) :
    (bumpColind cc colind).length = colind.length := by
  simp [bumpColind]
  omega

theorem bumpColind_getD_le {cc i : Nat} {colind : List Nat} (hi : i ≤ cc)
    (hlen : i < colind.length) :
    (bumpColind cc colind).getD i 0 = colind.getD i 0 := by
  rw [bumpColind, List.getD_eq_getElem?_getD, List.getD_eq_getElem?_getD,
    List.getElem?_append_left (by simp; omega), List.getElem?_take, if_pos (by omega)]

theorem bumpColind_getD_gt {cc i : Nat} {colind : List Nat} (hi : cc < i)
    (hlen : i < colind.length) :
    (bumpColind cc colind).getD i 0 = colind.getD i 0 + 1 := by
  have htl : (colind.take (cc + 1)).length = cc + 1 := by simp; omega
  rw [bumpColind, List.getD_eq_getElem?_getD,
    List.getElem?_append_right (by rw [htl]; omega), htl, List.getElem?_map,
    List.getElem?_drop, show cc + 1 + (i - (cc + 1)) = i by omega]
  rw [List.getD_eq_getElem?_getD]
  match hx : colind[i]? with
  | some v => rfl
  | none =>
    rw [List.getElem?_eq_none_iff] at hx
    omega

theorem slice_getD {row : List Nat} {m k i : Nat} (hi : i < k) :
    ((row.drop m).take k).getD i 0 = row.getD (m + i) 0 := by
  rw [List.getD_eq_getElem?_getD, List.getD_eq_getElem?_getD, List.getElem?_take,
    if_pos hi, List.getElem?_drop]

theorem splice_before {row : List Nat} {ind m k : Nat} (hind : ind ≤ row.length)
    (hmk : m + k ≤ ind) {rr : Nat} :
    ((row.take ind ++ rr :: row.drop ind).drop m).take k = (row.drop m).take k := by
  have hlt : (row.take ind).length = ind := by simp; omega
  rw [List.drop_append_of_le_length (by omega),
    List.take_append_of_le_length (by simp; omega), List.drop_take, List.take_take]
  rw [show min k (ind - m) = k by omega]

theorem take_append_exact {α : Type} {l₁ l₂ : List α} {n k : Nat} (h : l₁.length = n) :
    (l₁ ++ l₂).take (n + k) = l₁ ++ l₂.take k := by
  subst h
  exact List.take_append k

theorem splice_after {row : List Nat} {ind m : Nat} (hind : ind ≤ m)
    (hlen : ind ≤ row.length) {rr : Nat} :
    (row.take ind ++ rr :: row.drop ind).drop (m + 1) = row.drop m := by
  have hlt : ∀ j, (row.take ind ++ rr :: row.drop ind).drop (ind + j)
      = (rr :: row.drop ind).drop j := by
    intro j
    conv_lhs => rw [show ind + j = min ind row.length + j by omega]
    rw [show min ind row.length = (row.take ind).length by simp, List.drop_append]
  rw [show m + 1 = ind + (m - ind + 1) by omega, hlt, List.drop_succ_cons, List.drop_drop]
  congr 1
  omega

theorem findPos_spec {rr : Nat} : ∀ {s : List Nat}, s.Pairwise (· < ·) →
    ∀ start, findPos rr s start
      = (start + (s.takeWhile (fun x => decide (x < rr))).length, decide (rr ∈ s)) := by
  intro s
  induction s with
  | nil => intro _ start; simp [findPos]
  | cons x xs ih =>
    intro hp start
    rw [findPos]
    by_cases hx : x = rr
    · rw [if_pos hx]
      have hm : rr ∈ x :: xs := by simp [hx]
      have ht : (x :: xs).takeWhile (fun y => decide (y < rr)) = [] := by
        rw [List.takeWhile_cons, if_neg (by simp; omega)]
      rw [ht, decide_eq_true hm]
      simp
    · by_cases hlt : rr < x
      · rw [if_neg hx, if_pos hlt]
        have hnm : rr ∉ x :: xs := by
          intro hmem
          rcases List.mem_cons.mp hmem with h | h
          · omega
          · have := (List.pairwise_cons.mp hp).1 rr h
            omega
        have ht : (x :: xs).takeWhile (fun y => decide (y < rr)) = [] := by
          rw [List.takeWhile_cons, if_neg (by simp; omega)]
        rw [ht, decide_eq_false hnm]
        simp
      · rw [if_neg hx, if_neg hlt, ih (List.pairwise_cons.mp hp).2 (start + 1)]
        have ht : (x :: xs).takeWhile (fun y => decide (y < rr))
            = x :: xs.takeWhile (fun y => decide (y < rr)) := by
          rw [List.takeWhile_cons, if_pos (by simp; omega)]
        have hms : (rr ∈ x :: xs) ↔ (rr ∈ xs) := by
          constructor
          · intro h
            rcases List.mem_cons.mp h with h | h
            · exact absurd h.symm hx
            · exact h
          · exact fun h => List.mem_cons_of_mem x h
        rw [ht]
        simp only [List.length_cons, Prod.mk.injEq]
        refine ⟨by omega, ?_⟩
        exact decide_eq_decide.mpr hms.symm

theorem takeWhile_eq_take_length {p : Nat → Bool} : ∀ {l : List Nat},
    l.takeWhile p = l.take (l.takeWhile p).length := by
  intro l
  induction l with
  | nil => rfl
  | cons x xs ih =>
    rw [List.takeWhile_cons]
    split
    · simp only [List.length_cons, List.take_succ_cons]
      rw [← ih]
    · rfl

theorem dropWhile_eq_drop_length {p : Nat → Bool} : ∀ {l : List Nat},
    l.dropWhile p = l.drop (l.takeWhile p).length := by
  intro l
  induction l with
  | nil => rfl
  | cons x xs ih =>
    rw [List.dropWhile_cons, List.takeWhile_cons]
    split
    · simp only [List.length_cons, List.drop_succ_cons]
      exact ih
    · rfl

theorem sorted_dropWhile_gt {rr : Nat} : ∀ {s : List Nat}, s.Pairwise (· < ·) → rr ∉ s →
    ∀ x ∈ s.dropWhile (fun y => decide (y < rr)), rr < x := by
  intro s
  induction s with
  | nil => intro _ _ x hx; simp [List.dropWhile] at hx
  | cons a xs ih =>
    intro hp hnm x hx
    rw [List.dropWhile_cons] at hx
    split at hx
    · exact ih (List.pairwise_cons.mp hp).2 (fun h => hnm (by simp [h])) x hx
    · rename_i hcond
      simp only [decide_eq_true_eq] at hcond
      have ha : rr ≤ a := by omega
      have hane : a ≠ rr := fun h => hnm (by simp [h])
      rcases List.mem_cons.mp hx with h | h
      · subst h; omega
      · have := (List.pairwise_cons.mp hp).1 x h
        omega

theorem sorted_all_lt_of_last {s : List Nat} (hp : s.Pairwise (· < ·)) {rr : Nat}
    (hne : s ≠ []) (hlast : s.getD (s.length - 1) 0 < rr) : ∀ x ∈ s, x < rr := by
  intro x hx
  obtain ⟨j, hj, hxj⟩ := List.mem_iff_getElem.mp hx
  have hlen : 0 < s.length := List.length_pos.mpr hne
  have h1 := pairwise_lt_getElem_add_le hp j (s.length - 1) hj (by omega) (by omega)
  rw [List.getD_eq_getElem _ _ (by omega : s.length - 1 < s.length)] at hlast
  omega

/-- Column-slice view of inserting a row index `rr` at sorted position
`i` of column `cc`: the bumped column pointers and the spliced row array
form a valid pattern whose column `cc` gained exactly `rr` and whose
other columns are untouched. -/
theorem insert_slice_spec {nrow ncol : Nat} {colind row : List Nat}
    (hv : validArr nrow ncol colind row = true)
    {cc rr i : Nat} (hc : cc < ncol) (hr : rr < nrow)
    (hi : i ≤ (colSliceA colind row cc).length)
    (hbefore : ∀ x ∈ (colSliceA colind row cc).take i, x < rr)
    (hafter : ∀ x ∈ (colSliceA colind row cc).drop i, rr < x) :
    validArr nrow ncol (bumpColind cc colind)
      (row.take (colind.getD cc 0 + i) ++ rr :: row.drop (colind.getD cc 0 + i)) = true ∧
    (∀ c, c < ncol → c ≠ cc → colSliceA (bumpColind cc colind)
        (row.take (colind.getD cc 0 + i) ++ rr :: row.drop (colind.getD cc 0 + i)) c
      = colSliceA colind row c) ∧
    colSliceA (bumpColind cc colind)
        (row.take (colind.getD cc 0 + i) ++ rr :: row.drop (colind.getD cc 0 + i)) cc
      = (colSliceA colind row cc).take i ++ rr :: (colSliceA colind row cc).drop i ∧
    (row.take (colind.getD cc 0 + i) ++ rr :: row.drop (colind.getD cc 0 + i)).getD
        (colind.getD cc 0 + i) 0 = rr ∧
    (bumpColind cc colind).getD cc 0 = colind.getD cc 0 ∧
    (bumpColind cc colind).getD (cc + 1) 0 = colind.getD (cc + 1) 0 + 1 := by
  obtain ⟨hlen, h0, hmono, hrow, hval⟩ := validArr_decomp hv
  set start := colind.getD cc 0 with hstart
  set fin := colind.getD (cc + 1) 0 with hfin
  set s := colSliceA colind row cc with hs
  set ind := start + i with hind
  have hsf : start ≤ fin := hmono cc hc
  have hfn : fin ≤ colind.getD ncol 0 := valid_colind_mono hv (cc + 1) ncol (by omega) (le_refl _)
  have hsn : start ≤ colind.getD ncol 0 := by omega
  have hslen : s.length = fin - start := valid_slice_length hv hc
  have hilen : i ≤ fin - start := by omega
  have hindlen : ind ≤ row.length := by omega
  set row' := row.take ind ++ rr :: row.drop ind with hrow'
  have hrowlen' : row'.length = row.length + 1 := by
    rw [hrow']
    simp
    omega
  -- column pointers
  have hgle : ∀ c, c ≤ cc → (bumpColind cc colind).getD c 0 = colind.getD c 0 := by
    intro c hcle
    exact bumpColind_getD_le hcle (by omega)
  have hggt : ∀ c, cc < c → c ≤ ncol → (bumpColind cc colind).getD c 0 = colind.getD c 0 + 1 := by
    intro c h1 h2
    exact bumpColind_getD_gt h1 (by omega)
  -- slices of untouched columns
  have hslice_lt : ∀ c, c < cc → colSliceA (bumpColind cc colind) row' c
      = colSliceA colind row c := by
    intro c hclt
    have e1 := hgle c (by omega)
    have e2 := hgle (c + 1) (by omega)
    have hcc : colind.getD (c + 1) 0 ≤ start :=
      valid_colind_mono hv (c + 1) cc (by omega) (by omega)
    have hccm : colind.getD c 0 ≤ colind.getD (c + 1) 0 := hmono c (by omega)
    unfold colSliceA
    rw [e1, e2, hrow', splice_before hindlen (by omega)]
  have hslice_gt : ∀ c, cc < c → c < ncol → colSliceA (bumpColind cc colind) row' c
      = colSliceA colind row c := by
    intro c h1 h2
    have e1 := hggt c h1 (by omega)
    have e2 := hggt (c + 1) (by omega) (by omega)
    have hcc : fin ≤ colind.getD c 0 :=
      valid_colind_mono hv (cc + 1) c (by omega) (by omega)
    unfold colSliceA
    rw [e1, e2, hrow', show colind.getD c 0 + 1 = colind.getD c 0 + 1 by rfl,
      splice_after (by omega) hindlen,
      show colind.getD (c + 1) 0 + 1 - (colind.getD c 0 + 1)
        = colind.getD (c + 1) 0 - colind.getD c 0 by omega]
  -- the modified column
  have hdropstart : row'.drop start = s.take i ++ rr :: row.drop ind := by
    rw [hrow', List.drop_append_of_le_length (by simp; omega), List.drop_take]
    have h1 : (row.drop start).take (ind - start) = s.take i := by
      rw [hs]
      unfold colSliceA
      rw [← hstart, ← hfin, List.take_take]
      congr 1
      omega
    rw [h1]
  have hsdrop : s.drop i = (row.drop ind).take (fin - start - i) := by
    rw [hs]
    unfold colSliceA
    rw [← hstart, ← hfin, List.drop_take, List.drop_drop]
  have htakelen : ((row.drop start).take i).length = i := by
    simp
    omega
  have hslice_cc : colSliceA (bumpColind cc colind) row' cc
      = s.take i ++ rr :: s.drop i := by
    unfold colSliceA
    rw [hgle cc (le_refl _), hggt (cc + 1) (by omega) (by omega), ← hstart, ← hfin,
      hdropstart]
    have hsi : s.take i = (row.drop start).take i := by
      rw [hs]
      unfold colSliceA
      rw [← hstart, ← hfin, List.take_take, show min i (fin - start) = i by omega]
    rw [show fin + 1 - start = i + (fin - start - i + 1) by omega, hsi,
      take_append_exact htakelen, List.take_succ_cons, ← hsdrop, ← hsi]
  have hget : row'.getD ind 0 = rr := by
    rw [hrow', List.getD_eq_getElem?_getD,
      List.getElem?_append_right (by simp)]
    have h00 : ind - (row.take ind).length = 0 := by rw [List.length_take]; omega
    rw [h00]
    simp
  -- validity
  have hvalid' : validArr nrow ncol (bumpColind cc colind) row' = true := by
    simp only [validArr, Bool.and_eq_true, beq_iff_eq, List.all_eq_true, List.mem_range,
      decide_eq_true_eq]
    refine ⟨⟨⟨⟨?_, ?_⟩, ?_⟩, ?_⟩, ?_⟩
    · rw [bumpColind_length, hlen]
    · rw [hgle 0 (by omega), h0]
    · intro c hcn
      rcases Nat.lt_trichotomy c cc with h1 | h1 | h1
      · rw [hgle c (by omega), hgle (c + 1) (by omega)]
        exact hmono c hcn
      · subst h1
        rw [hgle c (le_refl _), hggt (c + 1) (by omega) (by omega)]
        omega
      · rw [hggt c h1 (by omega), hggt (c + 1) (by omega) (by omega)]
        have := hmono c hcn
        omega
    · rw [hggt ncol (by omega) (le_refl _), hrowlen', hrow]
    · intro c hcn
      rcases Nat.lt_trichotomy c cc with h1 | h1 | h1
      · rw [hslice_lt c h1]
        obtain ⟨ha, hb⟩ := hval c hcn
        exact ⟨ha, fun r hrm => hb r hrm⟩
      · subst h1
        rw [hslice_cc]
        obtain ⟨hsort, hbnd⟩ := valid_slice_sorted hv hcn
        constructor
        · rw [strictIncrB_iff, List.chain'_iff_pairwise, List.pairwise_append]
          refine ⟨hsort.sublist (List.take_sublist i s), ?_, ?_⟩
          · rw [List.pairwise_cons]
            exact ⟨fun y hy => hafter y hy, hsort.sublist (List.drop_sublist i s)⟩
          · intro x hx y hy
            have hxrr := hbefore x hx
            rcases List.mem_cons.mp hy with h | h
            · omega
            · have := hafter y h
              omega
        · intro r hrm
          rcases List.mem_append.mp hrm with h | h
          · exact hbnd r (List.mem_of_mem_take h)
          · rcases List.mem_cons.mp h with h | h
            · omega
            · exact hbnd r (List.mem_of_mem_drop h)
      · rw [hslice_gt c h1 hcn]
        obtain ⟨ha, hb⟩ := hval c hcn
        exact ⟨ha, fun r hrm => hb r hrm⟩
  refine ⟨hvalid', ?_, hslice_cc, hget, hgle cc (le_refl _),
    hggt (cc + 1) (by omega) (by omega)⟩
  intro c h1 h2
  rcases Nat.lt_or_ge c cc with h3 | h3
  · exact hslice_lt c h3
  · exact hslice_gt c (by omega) h1

theorem denseArrays_row_getD {nrow ncol rr cc : Nat} (hr : rr < nrow) (hc : cc < ncol) :
    (denseArrays nrow ncol).2.getD (rr + cc * nrow) 0 = rr := by
  show ((List.range ncol).flatMap fun _ => List.range nrow).getD (rr + cc * nrow) 0 = rr
  rw [List.getD_eq_getElem?_getD, show rr + cc * nrow = cc * nrow + rr by omega,
    ← List.getElem?_drop, show cc * nrow = cc * (List.range nrow).length by simp,
    flatMapConst_drop _ cc ncol (le_of_lt hc)]
  match hm : ncol - cc, (by omega : 0 < ncol - cc) with
  | m + 1, _ =>
    rw [flatMapConst_succ, List.getElem?_append_left (by simp [hr]), List.getElem?_range hr]
    rfl

theorem sorted_getD_takeWhile {rr : Nat} : ∀ {s : List Nat}, s.Pairwise (· < ·) → rr ∈ s →
    s.getD (s.takeWhile (fun y => decide (y < rr))).length 0 = rr := by
  intro s
  induction s with
  | nil => intro _ h; simp at h
  | cons x xs ih =>
    intro hp hm
    rw [List.takeWhile_cons]
    by_cases hx : x < rr
    · rw [if_pos (by simp [hx]), List.length_cons, List.getD_cons_succ]
      have hrx : rr ≠ x := by omega
      exact ih (List.pairwise_cons.mp hp).2
        ((List.mem_cons.mp hm).resolve_left hrx)
    · rw [if_neg (by simp [hx])]
      rcases List.mem_cons.mp hm with h | h
      · rw [List.length_nil, List.getD_cons_zero, ← h]
      · have := (List.pairwise_cons.mp hp).1 rr h
        omega

theorem takeWhile_length_lt_of_mem {rr : Nat} {s : List Nat} (hm : rr ∈ s) :
    (s.takeWhile (fun y => decide (y < rr))).length < s.length := by
  rcases Nat.lt_or_ge (s.takeWhile (fun y => decide (y < rr))).length s.length with h | h
  · exact h
  · exfalso
    have hall : s.takeWhile (fun y => decide (y < rr)) = s := by
      rw [takeWhile_eq_take_length (p := fun y => decide (y < rr)),
        List.take_of_length_le h]
    have := List.mem_takeWhile_imp (p := fun y => decide (y < rr)) (hall ▸ hm)
    simp at this

theorem slice_getD_valid {nrow ncol : Nat} {colind row : List Nat}
    (hv : validArr nrow ncol colind row = true) {cc i : Nat} (hc : cc < ncol)
    (hi : i < (colSliceA colind row cc).length) :
    (colSliceA colind row cc).getD i 0 = row.getD (colind.getD cc 0 + i) 0 := by
  have hslen := valid_slice_length hv hc
  unfold colSliceA at *
  exact slice_getD (by omega)

theorem slice_all_lt {nrow ncol : Nat} {colind row : List Nat}
    (hv : validArr nrow ncol colind row = true) {cc : Nat} (hc : cc < ncol)
    (hne : colSliceA colind row cc ≠ []) {rr : Nat}
    (hlast : row.getD (colind.getD (cc + 1) 0 - 1) 0 < rr) :
    ∀ x ∈ colSliceA colind row cc, x < rr := by
  have hslen := valid_slice_length hv hc
  obtain ⟨-, -, hmono, -, -⟩ := validArr_decomp hv
  have hmcc := hmono cc hc
  have hlpos : 0 < (colSliceA colind row cc).length := List.length_pos.mpr hne
  have hgl := slice_getD_valid hv hc
    (i := (colSliceA colind row cc).length - 1) (by omega)
  apply sorted_all_lt_of_last (valid_slice_sorted hv hc).1 hne
  rw [hgl, show colind.getD cc 0 + ((colSliceA colind row cc).length - 1)
    = colind.getD (cc + 1) 0 - 1 by omega]
  exact hlast

theorem slice_found_getD {nrow ncol : Nat} {colind row : List Nat}
    (hv : validArr nrow ncol colind row = true) {cc rr : Nat} (hc : cc < ncol)
    (hm : rr ∈ colSliceA colind row cc) :
    row.getD (colind.getD cc 0
      + ((colSliceA colind row cc).takeWhile (fun y => decide (y < rr))).length) 0 = rr := by
  have hi := takeWhile_length_lt_of_mem hm
  rw [← slice_getD_valid hv hc hi]
  exact sorted_getD_takeWhile (valid_slice_sorted hv hc).1 hm

/-- Shared outcome of the three inserting paths of `add_nz`: the pattern
rebound after inserting `rr` at sorted offset `i` of column `cc`. -/
theorem insert_outcome {p : Pattern} (hv : validPat p = true) {cc rr i : Nat}
    (hc : cc < p.ncol) (hr : rr < p.nrow)
    (hi : i ≤ (colSliceA p.colind p.row cc).length)
    (hbefore : ∀ x ∈ (colSliceA p.colind p.row cc).take i, x < rr)
    (hafter : ∀ x ∈ (colSliceA p.colind p.row cc).drop i, rr < x) :
    ∀ q : Pattern, q = ⟨p.nrow, p.ncol, bumpColind cc p.colind,
        p.row.take (p.colind.getD cc 0 + i) ++ rr :: p.row.drop (p.colind.getD cc 0 + i)⟩ →
      q.nrow = p.nrow ∧ q.ncol = p.ncol ∧ validPat q = true ∧
      q.colind.getD cc 0 ≤ p.colind.getD cc 0 + i ∧
      p.colind.getD cc 0 + i < q.colind.getD (cc + 1) 0 ∧
      q.row.getD (p.colind.getD cc 0 + i) 0 = rr ∧
      (∀ r c, c < p.ncol → (r ∈ colSliceA q.colind q.row c
          ↔ r ∈ colSliceA p.colind p.row c ∨ (r = rr ∧ c = cc))) := by
  have hva : validArr p.nrow p.ncol p.colind p.row = true := hv
  obtain ⟨hvalid', hsl_ne, hsl_cc, hget, hgcc, hgcc1⟩ :=
    insert_slice_spec hva hc hr hi hbefore hafter
  have hslen := valid_slice_length hva hc
  obtain ⟨-, -, hmono, -, -⟩ := validArr_decomp hva
  have hmcc := hmono cc hc
  intro q hq
  subst hq
  refine ⟨rfl, rfl, hvalid', ?_, ?_, hget, ?_⟩
  · show (bumpColind cc p.colind).getD cc 0 ≤ p.colind.getD cc 0 + i
    rw [hgcc]
    omega
  · show p.colind.getD cc 0 + i < (bumpColind cc p.colind).getD (cc + 1) 0
    rw [hgcc1]
    omega
  · intro r c hcn
    show r ∈ colSliceA (bumpColind cc p.colind)
        (p.row.take (p.colind.getD cc 0 + i) ++ rr :: p.row.drop (p.colind.getD cc 0 + i)) c
      ↔ r ∈ colSliceA p.colind p.row c ∨ (r = rr ∧ c = cc)
    by_cases hccase : c = cc
    · subst hccase
      rw [hsl_cc]
      constructor
      · intro hmem
        rcases List.mem_append.mp hmem with h | h
        · exact Or.inl (List.mem_of_mem_take h)
        · rcases List.mem_cons.mp h with h | h
          · exact Or.inr ⟨h, rfl⟩
          · exact Or.inl (List.mem_of_mem_drop h)
      · intro hmem
        rcases hmem with h | ⟨h, -⟩
        · rw [← List.take_append_drop i (colSliceA p.colind p.row c)] at h
          rcases List.mem_append.mp h with h | h
          · exact List.mem_append.mpr (Or.inl h)
          · exact List.mem_append.mpr (Or.inr (List.mem_cons_of_mem rr h))
        · subst h
          exact List.mem_append.mpr (Or.inr (List.mem_cons_self _ _))
    · rw [hsl_ne c hcn hccase]
      constructor
      · exact fun h => Or.inl h
      · intro h
        rcases h with h | ⟨-, h⟩
        · exact h
        · exact absurd h hccase

/-- Claim C6: for every valid pattern and every in-range position
(after normalizing negative indices by adding the corresponding
dimension), `add_nz` returns an index `k` such that in the pattern bound
to the handle after the call, `row_idx[k] = rr` and
`col_ptr[cc] <= k < col_ptr[cc+1]`; if `(rr, cc)` was already
structurally nonzero the pattern is unchanged, and otherwise the new
pattern is valid (sorted order restored) and its nonzero set is the old
set plus `(rr, cc)`. -/
theorem add_nz_spec (p : Pattern) (rr0 cc0 : Int) (rr cc : Nat)
    (hv : validPat p = true)
    (hrn : (if rr0 < 0 then rr0 + p.nrow else rr0) = (rr : Int))
    (hcn : (if cc0 < 0 then cc0 + p.ncol else cc0) = (cc : Int))
    (hr : rr < p.nrow) (hc : cc < p.ncol) :
    ∃ k q, addNz p rr0 cc0 = some (k, q) ∧
      q.nrow = p.nrow ∧ q.ncol = p.ncol ∧ validPat q = true ∧
      q.colind.getD cc 0 ≤ k ∧ k < q.colind.getD (cc + 1) 0 ∧
      q.row.getD k 0 = rr ∧
      (rr ∈ colSliceA p.colind p.row cc → q = p) ∧
      (rr ∉ colSliceA p.colind p.row cc →
        ∀ r c, c < p.ncol →
          (r ∈ colSliceA q.colind q.row c
            ↔ r ∈ colSliceA p.colind p.row c ∨ (r = rr ∧ c = cc))) := by
  have hva : validArr p.nrow p.ncol p.colind p.row = true := hv
  obtain ⟨hlen, h0, hmono, hrowl, hval⟩ := validArr_decomp hva
  obtain ⟨hsort, hbnd⟩ := valid_slice_sorted hva hc
  have hnnzdef : nnzP p = p.colind.getD p.ncol 0 := rfl
  have haddnz : addNz p rr0 cc0 =
      (if nnzP p = p.nrow * p.ncol then
        some (rr + cc * p.nrow, p)
      else if p.colind.getD cc 0 = nnzP p ∨
          (p.colind.getD (cc + 1) 0 = nnzP p ∧ p.row.getD (nnzP p - 1) 0 < rr) then
        some (nnzP p, ⟨p.nrow, p.ncol, bumpColind cc p.colind, p.row ++ [rr]⟩)
      else
        match findPos rr (colSliceA p.colind p.row cc) (p.colind.getD cc 0) with
        | (ind, true) => some (ind, p)
        | (ind, false) =>
          some (ind, ⟨p.nrow, p.ncol, bumpColind cc p.colind,
            p.row.take ind ++ rr :: p.row.drop ind⟩)) := by
    rw [addNz]
    simp only [hrn, hcn]
    rw [if_pos ⟨by omega, by exact_mod_cast hr, by omega, by exact_mod_cast hc⟩]
    rw [Int.toNat_natCast, Int.toNat_natCast]
  have hslen : (colSliceA p.colind p.row cc).length
      = p.colind.getD (cc + 1) 0 - p.colind.getD cc 0 := valid_slice_length hva hc
  have hmcc : p.colind.getD cc 0 ≤ p.colind.getD (cc + 1) 0 := hmono cc hc
  have hfn : p.colind.getD (cc + 1) 0 ≤ p.colind.getD p.ncol 0 :=
    valid_colind_mono hva (cc + 1) p.ncol (by omega) (le_refl _)
  by_cases hdense : nnzP p = p.nrow * p.ncol
  · -- dense quick return
    have hd' : p.colind.getD p.ncol 0 = p.nrow * p.ncol := hdense
    have hcc0 := valid_dense_colind hva hd' cc (by omega)
    have hcc1 := valid_dense_colind hva hd' (cc + 1) (by omega)
    have hsrange : colSliceA p.colind p.row cc = List.range p.nrow :=
      valid_dense_slice hva hd' hc
    have hrowd : p.row = (denseArrays p.nrow p.ncol).2 :=
      congrArg Pattern.row (valid_dense_eq hv hdense)
    refine ⟨rr + cc * p.nrow, p, by rw [haddnz, if_pos hdense], rfl, rfl, hv,
      ?_, ?_, ?_, fun _ => rfl, ?_⟩
    · rw [hcc0]; omega
    · rw [hcc1, Nat.succ_mul]; omega
    · rw [hrowd]; exact denseArrays_row_getD hr hc
    · intro hnm
      exact absurd (hsrange ▸ List.mem_range.mpr hr) hnm
  · rw [haddnz, if_neg hdense]
    by_cases happend : p.colind.getD cc 0 = nnzP p ∨
        (p.colind.getD (cc + 1) 0 = nnzP p ∧ p.row.getD (nnzP p - 1) 0 < rr)
    · -- quick append at the structural end
      rw [if_pos happend]
      have hout : p.colind.getD cc 0 + (colSliceA p.colind p.row cc).length = nnzP p ∧
          ∀ x ∈ (colSliceA p.colind p.row cc).take (colSliceA p.colind p.row cc).length,
            x < rr := by
        rcases happend with h1 | ⟨h2, h3⟩
        · have hfin : p.colind.getD (cc + 1) 0 = nnzP p := by omega
          have hs0 : (colSliceA p.colind p.row cc).length = 0 := by omega
          refine ⟨by omega, ?_⟩
          intro x hx
          rw [List.eq_nil_of_length_eq_zero hs0] at hx
          simp at hx
        · by_cases hne : colSliceA p.colind p.row cc = []
          · have hs0 : (colSliceA p.colind p.row cc).length = 0 := by rw [hne]; rfl
            refine ⟨by omega, ?_⟩
            intro x hx
            rw [hne] at hx
            simp at hx
          · refine ⟨by omega, ?_⟩
            rw [List.take_length]
            apply slice_all_lt hva hc hne
            rw [show p.colind.getD (cc + 1) 0 - 1 = nnzP p - 1 by omega]
            exact h3
      have hrw2 : (⟨p.nrow, p.ncol, bumpColind cc p.colind, p.row ++ [rr]⟩ : Pattern)
          = ⟨p.nrow, p.ncol, bumpColind cc p.colind,
            p.row.take (p.colind.getD cc 0 + (colSliceA p.colind p.row cc).length)
              ++ rr :: p.row.drop
                (p.colind.getD cc 0 + (colSliceA p.colind p.row cc).length)⟩ := by
        rw [show p.colind.getD cc 0 + (colSliceA p.colind p.row cc).length
            = p.row.length by omega, List.take_length, List.drop_length]
      obtain ⟨o1, o2, o3, o4, o5, o6, o7⟩ := insert_outcome hv hc hr (le_refl _) hout.2
        (by rw [List.drop_length]; intro x hx; simp at hx) _ hrw2
      refine ⟨nnzP p, _, rfl, o1, o2, o3, ?_, ?_, ?_, ?_, fun _ => o7⟩
      · rw [show nnzP p = p.colind.getD cc 0 + (colSliceA p.colind p.row cc).length
          by omega]
        exact o4
      · rw [show nnzP p = p.colind.getD cc 0 + (colSliceA p.colind p.row cc).length
          by omega]
        exact o5
      · rw [show nnzP p = p.colind.getD cc 0 + (colSliceA p.colind p.row cc).length
          by omega]
        exact o6
      · intro hmem
        have hcon := hout.2 rr (by rw [List.take_length]; exact hmem)
        exact absurd hcon (by omega)
    · -- search and insert within the column
      rw [if_neg happend, findPos_spec hsort]
      by_cases hmem : rr ∈ colSliceA p.colind p.row cc
      · rw [decide_eq_true hmem]
        have hitw := takeWhile_length_lt_of_mem hmem
        refine ⟨p.colind.getD cc 0
            + ((colSliceA p.colind p.row cc).takeWhile (fun y => decide (y < rr))).length,
          p, rfl, rfl, rfl, hv, by omega, by omega, ?_, fun _ => rfl,
          fun hnm => absurd hmem hnm⟩
        exact slice_found_getD hva hc hmem
      · rw [decide_eq_false hmem]
        have hitw : ((colSliceA p.colind p.row cc).takeWhile
            (fun y => decide (y < rr))).length ≤ (colSliceA p.colind p.row cc).length :=
          (List.takeWhile_sublist _).length_le
        have hbefore : ∀ x ∈ (colSliceA p.colind p.row cc).take
            ((colSliceA p.colind p.row cc).takeWhile (fun y => decide (y < rr))).length,
            x < rr := by
          intro x hx
          rw [← takeWhile_eq_take_length] at hx
          have := List.mem_takeWhile_imp hx
          simpa using this
        have hafter : ∀ x ∈ (colSliceA p.colind p.row cc).drop
            ((colSliceA p.colind p.row cc).takeWhile (fun y => decide (y < rr))).length,
            rr < x := by
          intro x hx
          rw [← dropWhile_eq_drop_length] at hx
          exact sorted_dropWhile_gt hsort hmem x hx
        obtain ⟨o1, o2, o3, o4, o5, o6, o7⟩ :=
          insert_outcome hv hc hr hitw hbefore hafter _ rfl
        exact ⟨_, _, rfl, o1, o2, o3, o4, o5, o6, fun hm => absurd hm hmem, fun _ => o7⟩

theorem add_nz_spec_witness :
    (validPat ⟨2, 2, [0, 1, 2], [0, 1]⟩ = true ∧
     (if (0 : Int) < 0 then (0 : Int) + (2 : Nat) else 0) = ((0 : Nat) : Int) ∧
     (if (0 : Int) < 0 then (0 : Int) + (2 : Nat) else 0) = ((0 : Nat) : Int) ∧
     (0 : Nat) < 2 ∧ (0 : Nat) < 2) ∧
    (∃ k q, addNz ⟨2, 2, [0, 1, 2], [0, 1]⟩ 0 0 = some (k, q) ∧
      q.nrow = 2 ∧ q.ncol = 2 ∧ validPat q = true ∧
      q.colind.getD 0 0 ≤ k ∧ k < q.colind.getD (0 + 1) 0 ∧
      q.row.getD k 0 = 0 ∧
      (0 ∈ colSliceA [0, 1, 2] [0, 1] 0 → q = ⟨2, 2, [0, 1, 2], [0, 1]⟩) ∧
      (0 ∉ colSliceA [0, 1, 2] [0, 1] 0 →
        ∀ r c, c < 2 →
          (r ∈ colSliceA q.colind q.row c
            ↔ r ∈ colSliceA [0, 1, 2] [0, 1] c ∨ (r = 0 ∧ c = 0)))) :=
  ⟨⟨by decide, by decide, by decide, by decide, by decide⟩,
   add_nz_spec ⟨2, 2, [0, 1, 2], [0, 1]⟩ 0 0 0 0 (by decide) (by decide) (by decide)
     (by decide) (by decide)⟩

/-! ## Counting-sort correctness -/

theorem getD_set_self {l : List Nat} {i v : Nat} (h : i < l.length) :
    (l.set i v).getD i 0 = v := by
  rw [List.getD_eq_getElem?_getD, List.getElem?_set, if_pos rfl, if_pos h]
  rfl

theorem getD_set_ne {l : List Nat} {i j v : Nat} (h : i ≠ j) :
    (l.set i v).getD j 0 = l.getD j 0 := by
  rw [List.getD_eq_getElem?_getD, List.getElem?_set, if_neg h, ← List.getD_eq_getElem?_getD]

theorem getD_set_self_or (l : List Nat) (i v : Nat) :
    (l.set i v).getD i 0 = if i < l.length then v else 0 := by
  rw [List.getD_eq_getElem?_getD, List.getElem?_set, if_pos rfl]
  by_cases h : i < l.length
  · rw [if_pos h, if_pos h]
    rfl
  · rw [if_neg h, if_neg h]
    rfl

theorem getD_default_oob (l : List Nat) {i : Nat} (h : l.length ≤ i) : l.getD i 0 = 0 := by
  rw [List.getD_eq_getElem?_getD, List.getElem?_eq_none (by omega)]
  rfl

theorem tallyNext_length : ∀ (keys acc : List Nat), (tallyNext keys acc).length = acc.length := by
  intro keys
  induction keys with
  | nil => intro acc; rfl
  | cons k ks ih =>
    intro acc
    rw [tallyNext, ih]
    simp

theorem tallyNext_getD : ∀ (keys acc : List Nat) {i : Nat}, i < acc.length →
    (tallyNext keys acc).getD i 0
      = acc.getD i 0 + keys.countP (fun k => decide (k + 1 = i)) := by
  intro keys
  induction keys with
  | nil => intro acc i hi; simp [tallyNext]
  | cons k ks ih =>
    intro acc i hi
    rw [tallyNext, ih _ (by simpa using hi), List.countP_cons]
    by_cases hk : k + 1 = i
    · subst hk
      rw [getD_set_self (by omega), if_pos (by simp)]
      omega
    · rw [getD_set_ne hk, if_neg (by simp [hk])]
      omega

theorem cumsumLoop_succ (n : Nat) (a : List Nat) :
    cumsumLoop (n + 1) a = (cumsumLoop n a).set (n + 1)
      ((cumsumLoop n a).getD (n + 1) 0 + (cumsumLoop n a).getD n 0) := by
  unfold cumsumLoop
  rw [List.range_succ, List.foldl_append]
  rfl

theorem cumsumLoop_length (n : Nat) (a : List Nat) : (cumsumLoop n a).length = a.length := by
  induction n with
  | zero => rfl
  | succ m ih => rw [cumsumLoop_succ, List.length_set, ih]

theorem cumsumLoop_getD_high (n : Nat) (a : List Nat) :
    ∀ i, n < i → (cumsumLoop n a).getD i 0 = a.getD i 0 := by
  induction n with
  | zero => intro i _; rfl
  | succ m ih =>
    intro i hi
    rw [cumsumLoop_succ, getD_set_ne (by omega), ih i (by omega)]

theorem cumsumLoop_getD (n : Nat) (a : List Nat) (hn : n < a.length) :
    ∀ i, i ≤ n → (cumsumLoop n a).getD i 0
      = ((List.range (i + 1)).map (fun j => a.getD j 0)).sum := by
  induction n with
  | zero =>
    intro i hi
    have hi0 : i = 0 := by omega
    subst hi0
    show a.getD 0 0 = ((List.range 1).map (fun j => a.getD j 0)).sum
    rw [show List.range 1 = [0] from rfl]
    simp
  | succ m ih =>
    intro i hi
    rw [cumsumLoop_succ]
    rcases Nat.lt_or_ge i (m + 1) with h | h
    · rw [getD_set_ne (by omega)]
      exact ih (by omega) i (by omega)
    · have hieq : i = m + 1 := by omega
      subst hieq
      rw [getD_set_self (by rw [cumsumLoop_length]; omega),
        cumsumLoop_getD_high m a (m + 1) (by omega), ih (by omega) m (le_refl _),
        List.range_succ (n := m + 1), List.map_append, List.sum_append]
      simp
      omega

theorem placeLoop_length (key : Nat → Nat) :
    ∀ (l pos out : List Nat), ((placeLoop key pos out l).2).length = out.length := by
  intro l
  induction l with
  | nil => intro pos out; rfl
  | cons k ks ih =>
    intro pos out
    rw [placeLoop, ih]
    simp

theorem pos_step_subset (key : Nat → Nat) (pos : List Nat) (k : Nat) (ks : List Nat)
    (x : Nat) :
    pos.getD (key x) 0 ≤ (pos.set (key k) (pos.getD (key k) 0 + 1)).getD (key x) 0 ∧
    (pos.set (key k) (pos.getD (key k) 0 + 1)).getD (key x) 0
        + ks.countP (fun y => decide (key y = key x))
      ≤ pos.getD (key x) 0 + (k :: ks).countP (fun y => decide (key y = key x)) := by
  rw [List.countP_cons]
  by_cases hkk : key k = key x
  · rw [← hkk, getD_set_self_or]
    by_cases hb : key k < pos.length
    · rw [if_pos hb, if_pos (by simp [hkk])]
      omega
    · rw [if_neg hb, getD_default_oob pos (by omega), if_pos (by simp [hkk])]
      omega
  · rw [getD_set_ne hkk, if_neg (by simp [hkk])]
    omega

theorem placeLoop_untouched (key : Nat → Nat) :
    ∀ (l pos out : List Nat) (q : Nat),
      (∀ x ∈ l, ¬(pos.getD (key x) 0 ≤ q ∧
        q < pos.getD (key x) 0 + l.countP (fun y => decide (key y = key x)))) →
      (placeLoop key pos out l).2.getD q 0 = out.getD q 0 := by
  intro l
  induction l with
  | nil => intro pos out q _; rfl
  | cons k ks ih =>
    intro pos out q hseg
    have hrec : ∀ x ∈ ks,
        ¬((pos.set (key k) (pos.getD (key k) 0 + 1)).getD (key x) 0 ≤ q ∧
          q < (pos.set (key k) (pos.getD (key k) 0 + 1)).getD (key x) 0
            + ks.countP (fun y => decide (key y = key x))) := by
      intro x hx hcontra
      obtain ⟨hsub1, hsub2⟩ := pos_step_subset key pos k ks x
      exact hseg x (List.mem_cons_of_mem k hx) ⟨by omega, by omega⟩
    rw [placeLoop, ih _ _ _ hrec]
    apply getD_set_ne
    intro heq
    apply hseg k (List.mem_cons_self k ks)
    have hcp : 0 < (k :: ks).countP (fun y => decide (key y = key k)) := by
      rw [List.countP_cons]
      simp
    omega

theorem placeLoop_getD (key : Nat → Nat) :
    ∀ (l pos out : List Nat),
      (∀ x ∈ l, key x < pos.length) →
      (∀ x ∈ l, pos.getD (key x) 0
        + l.countP (fun y => decide (key y = key x)) ≤ out.length) →
      (∀ x ∈ l, ∀ y ∈ l, key x ≠ key y →
        pos.getD (key x) 0 + l.countP (fun z => decide (key z = key x))
          ≤ pos.getD (key y) 0 ∨
        pos.getD (key y) 0 + l.countP (fun z => decide (key z = key y))
          ≤ pos.getD (key x) 0) →
      ∀ b j, j < l.countP (fun z => decide (key z = b)) →
        (placeLoop key pos out l).2.getD (pos.getD b 0 + j) 0
          = (l.filter (fun z => decide (key z = b))).getD j 0 := by
  intro l
  induction l with
  | nil =>
    intro pos out _ _ _ b j hj
    rw [List.countP_nil] at hj
    exact absurd hj (by omega)
  | cons k ks ih =>
    intro pos out hkb hb hdisj b j hj
    have hkmem : k ∈ k :: ks := List.mem_cons_self k ks
    have hcntk : 0 < (k :: ks).countP (fun y => decide (key y = key k)) := by
      rw [List.countP_cons]; simp
    -- facts about the updated position vector
    have hpos' : (pos.set (key k) (pos.getD (key k) 0 + 1)).getD (key k) 0
        = pos.getD (key k) 0 + 1 := getD_set_self (hkb k hkmem)
    have hposlen : (pos.set (key k) (pos.getD (key k) 0 + 1)).length = pos.length := by simp
    have houtlen : (out.set (pos.getD (key k) 0) k).length = out.length := by simp
    -- IH hypotheses for the tail
    have hkb' : ∀ x ∈ ks, key x < (pos.set (key k) (pos.getD (key k) 0 + 1)).length := by
      intro x hx
      rw [hposlen]
      exact hkb x (List.mem_cons_of_mem k hx)
    have hb' : ∀ x ∈ ks, (pos.set (key k) (pos.getD (key k) 0 + 1)).getD (key x) 0
        + ks.countP (fun y => decide (key y = key x))
        ≤ (out.set (pos.getD (key k) 0) k).length := by
      intro x hx
      rw [houtlen]
      obtain ⟨-, hs2⟩ := pos_step_subset key pos k ks x
      have := hb x (List.mem_cons_of_mem k hx)
      omega
    have hdisj' : ∀ x ∈ ks, ∀ y ∈ ks, key x ≠ key y →
        (pos.set (key k) (pos.getD (key k) 0 + 1)).getD (key x) 0
          + ks.countP (fun z => decide (key z = key x))
          ≤ (pos.set (key k) (pos.getD (key k) 0 + 1)).getD (key y) 0 ∨
        (pos.set (key k) (pos.getD (key k) 0 + 1)).getD (key y) 0
          + ks.countP (fun z => decide (key z = key y))
          ≤ (pos.set (key k) (pos.getD (key k) 0 + 1)).getD (key x) 0 := by
      intro x hx y hy hxy
      obtain ⟨hx1, hx2⟩ := pos_step_subset key pos k ks x
      obtain ⟨hy1, hy2⟩ := pos_step_subset key pos k ks y
      have hcx : 0 < (k :: ks).countP (fun z => decide (key z = key x)) := by
        rw [List.countP_cons]
        have hgt : 0 < ks.countP (fun z => decide (key z = key x)) :=
          List.countP_pos_iff.mpr ⟨x, hx, by simp⟩
        omega
      have hcy : 0 < (k :: ks).countP (fun z => decide (key z = key y)) := by
        rw [List.countP_cons]
        have hgt : 0 < ks.countP (fun z => decide (key z = key y)) :=
          List.countP_pos_iff.mpr ⟨y, hy, by simp⟩
        omega
      rcases hdisj x (List.mem_cons_of_mem k hx) y (List.mem_cons_of_mem k hy) hxy
        with h | h
      · left; omega
      · right; omega
    rw [placeLoop]
    by_cases hbk : b = key k
    · subst hbk
      cases j with
      | zero =>
        have hunt : ∀ x ∈ ks,
            ¬((pos.set (key k) (pos.getD (key k) 0 + 1)).getD (key x) 0
                ≤ pos.getD (key k) 0 ∧
              pos.getD (key k) 0 < (pos.set (key k) (pos.getD (key k) 0 + 1)).getD (key x) 0
                + ks.countP (fun y => decide (key y = key x))) := by
          intro x hx hcontra
          by_cases hxk : key x = key k
          · rw [hxk, hpos'] at hcontra
            omega
          · obtain ⟨hx1, hx2⟩ := pos_step_subset key pos k ks x
            have hcx : 0 < (k :: ks).countP (fun z => decide (key z = key x)) := by
              rw [List.countP_cons]
              have hgt : 0 < ks.countP (fun z => decide (key z = key x)) :=
                List.countP_pos_iff.mpr ⟨x, hx, by simp⟩
              omega
            rcases hdisj x (List.mem_cons_of_mem k hx) k hkmem hxk with h | h <;> omega
        show (placeLoop key (pos.set (key k) (pos.getD (key k) 0 + 1))
            (out.set (pos.getD (key k) 0) k) ks).2.getD (pos.getD (key k) 0) 0
          = (List.filter (fun z => decide (key z = key k)) (k :: ks)).getD 0 0
        rw [placeLoop_untouched key ks _ _ _ hunt,
          getD_set_self (by have := hb k hkmem; omega), List.filter_cons,
          if_pos (by simp)]
        rfl
      | succ j' =>
        have hcnt' : j' < ks.countP (fun z => decide (key z = key k)) := by
          rw [List.countP_cons] at hj
          simp at hj
          omega
        have hres := ih _ _ hkb' hb' hdisj' (key k) j' hcnt'
        rw [hpos'] at hres
        rw [show pos.getD (key k) 0 + (j' + 1) = pos.getD (key k) 0 + 1 + j' by omega,
          hres, List.filter_cons, if_pos (by simp)]
        rfl
    · have hpb : (pos.set (key k) (pos.getD (key k) 0 + 1)).getD b 0 = pos.getD b 0 :=
        getD_set_ne (fun h => hbk h.symm)
      have hcnt' : j < ks.countP (fun z => decide (key z = b)) := by
        rw [List.countP_cons] at hj
        have hne : ¬(key k = b) := fun h => hbk h.symm
        simp [hne] at hj
        exact hj
      have hres := ih _ _ hkb' hb' hdisj' b j hcnt'
      rw [hpb] at hres
      rw [hres, List.filter_cons, if_neg (by simp; exact fun h => hbk h.symm)]

theorem countP_lt_succ (key : Nat → Nat) (l : List Nat) (b : Nat) :
    l.countP (fun x => decide (key x < b + 1))
      = l.countP (fun x => decide (key x < b)) + l.countP (fun x => decide (key x = b)) := by
  induction l with
  | nil => rfl
  | cons a t ih =>
    rw [List.countP_cons, List.countP_cons, List.countP_cons, ih]
    simp only [decide_eq_true_eq]
    split_ifs <;> omega

theorem tally_counts (key : Nat → Nat) (nb : Nat) (idxs : List Nat) {j : Nat} (hj : j ≤ nb) :
    (tallyNext (idxs.map key) (List.replicate (nb + 1) 0)).getD j 0
      = idxs.countP (fun x => decide (key x + 1 = j)) := by
  rw [tallyNext_getD _ _ (by simp; omega), List.countP_map]
  have hrep : (List.replicate (nb + 1) (0 : Nat)).getD j 0 = 0 := by
    rw [List.getD_eq_getElem?_getD, List.getElem?_replicate, if_pos (by omega)]
    rfl
  rw [hrep]
  simp only [Nat.zero_add]
  rfl

theorem range_map_sum_succ (f : Nat → Nat) (b : Nat) :
    ((List.range (b + 1)).map f).sum = ((List.range b).map f).sum + f b := by
  rw [List.range_succ, List.map_append, List.sum_append]
  simp

theorem starts_getD (key : Nat → Nat) (nb : Nat) (idxs : List Nat) :
    ∀ b, b ≤ nb →
      (cumsumLoop nb (tallyNext (idxs.map key) (List.replicate (nb + 1) 0))).getD b 0
        = idxs.countP (fun x => decide (key x < b)) := by
  have hlen : (tallyNext (idxs.map key) (List.replicate (nb + 1) 0)).length = nb + 1 := by
    rw [tallyNext_length]
    simp
  intro b hb
  rw [cumsumLoop_getD nb _ (by omega) b hb]
  induction b with
  | zero =>
    rw [show List.range 1 = [0] from rfl]
    simp only [List.map_cons, List.map_nil, List.sum_cons, List.sum_nil]
    rw [tally_counts key nb idxs (by omega)]
    rw [List.countP_eq_zero.mpr (by intro a _; simp),
      List.countP_eq_zero.mpr (by intro a _; simp)]
    omega
  | succ m ih =>
    rw [range_map_sum_succ, ih (by omega), tally_counts key nb idxs (by omega),
      countP_lt_succ]
    have hcg : idxs.countP (fun x => decide (key x + 1 = m + 1))
        = idxs.countP (fun x => decide (key x = m)) :=
      List.countP_congr (by intro x _; simp)
    rw [hcg]

theorem flatMap_filter_length (key : Nat → Nat) (idxs : List Nat) :
    ∀ nb, ((List.range nb).flatMap
        (fun b => idxs.filter (fun x => decide (key x = b)))).length
      = idxs.countP (fun x => decide (key x < nb)) := by
  intro nb
  induction nb with
  | zero =>
    rw [List.countP_eq_zero.mpr (by intro a _; simp)]
    rfl
  | succ m ih =>
    rw [List.range_succ, List.flatMap_append, List.length_append, ih, countP_lt_succ]
    simp [← List.countP_eq_length_filter]

theorem countingSort_eq_flatMap (key : Nat → Nat) (nb : Nat) (idxs : List Nat)
    (hk : ∀ x ∈ idxs, key x < nb) :
    countingSort key nb idxs
      = (List.range nb).flatMap (fun b => idxs.filter (fun x => decide (key x = b))) := by
  have hstlen : (cumsumLoop nb (tallyNext (idxs.map key)
      (List.replicate (nb + 1) 0))).length = nb + 1 := by
    rw [cumsumLoop_length, tallyNext_length]
    simp
  have hst := starts_getD key nb idxs
  have hflen : (placeLoop key (cumsumLoop nb (tallyNext (idxs.map key)
      (List.replicate (nb + 1) 0))) (List.replicate idxs.length 0) idxs).2.length
      = idxs.length := by
    rw [placeLoop_length]
    simp
  have hp1 := placeLoop_getD key idxs
    (cumsumLoop nb (tallyNext (idxs.map key) (List.replicate (nb + 1) 0)))
    (List.replicate idxs.length 0)
    (by intro x hx; rw [hstlen]; have := hk x hx; omega)
    (by
      intro x hx
      rw [hst (key x) (by have := hk x hx; omega), List.length_replicate,
        ← countP_lt_succ]
      exact List.countP_le_length _)
    (by
      intro x hx y hy hxy
      rw [hst (key x) (by have := hk x hx; omega), hst (key y) (by have := hk y hy; omega)]
      rcases Nat.lt_or_ge (key x) (key y) with h | h
      · left
        rw [← countP_lt_succ]
        exact List.countP_mono_left (by intro a _; simp; omega)
      · have h2 : key y < key x := by omega
        right
        rw [← countP_lt_succ]
        exact List.countP_mono_left (by intro a _; simp; omega))
  have hseg : ∀ B, B ≤ nb →
      (countingSort key nb idxs).take (idxs.countP (fun x => decide (key x < B)))
        = (List.range B).flatMap (fun b => idxs.filter (fun x => decide (key x = b))) := by
    intro B
    induction B with
    | zero =>
      intro _
      rw [List.countP_eq_zero.mpr (by intro a _; simp)]
      rfl
    | succ m ih =>
      intro hm
      have hcslen : (countingSort key nb idxs).length = idxs.length := hflen
      have h1 : idxs.countP (fun x => decide (key x < m))
          + idxs.countP (fun x => decide (key x = m)) ≤ idxs.length := by
        rw [← countP_lt_succ]
        exact List.countP_le_length _
      have hsub : ((countingSort key nb idxs).drop
          (idxs.countP (fun x => decide (key x < m)))).take
          (idxs.countP (fun x => decide (key x = m)))
          = idxs.filter (fun x => decide (key x = m)) := by
        apply List.ext_getElem
        · rw [List.length_take, List.length_drop, hcslen,
            ← List.countP_eq_length_filter]
          omega
        · intro i hi1 hi2
          have hcnt : i < idxs.countP (fun x => decide (key x = m)) := by
            rw [← List.countP_eq_length_filter] at hi2
            exact hi2
          have hgd := hp1 m i hcnt
          rw [hst m (by omega)] at hgd
          have hslice : (((countingSort key nb idxs).drop
              (idxs.countP (fun x => decide (key x < m)))).take
              (idxs.countP (fun x => decide (key x = m)))).getD i 0
              = (countingSort key nb idxs).getD
                  (idxs.countP (fun x => decide (key x < m)) + i) 0 :=
            slice_getD hcnt
          rw [← List.getD_eq_getElem _ 0, ← List.getD_eq_getElem _ 0, hslice]
          exact hgd
      rw [countP_lt_succ, List.take_add, ih (by omega), List.range_succ,
        List.flatMap_append, hsub]
      simp
  have hfin := hseg nb (le_refl _)
  rw [List.countP_eq_length.mpr (by intro a ha; simp [hk a ha])] at hfin
  rw [← hfin]
  have hlen2 : (countingSort key nb idxs).length = idxs.length := hflen
  rw [List.take_of_length_le (le_of_eq hlen2)]

/-! ## The general path of `Sparsity::triplet`: segment structure -/

theorem takeWhile_all_none {p : Nat → Bool} {xs ys : List Nat}
    (hx : ∀ x ∈ xs, p x = true) (hy : ∀ y ∈ ys, p y = false) :
    (xs ++ ys).takeWhile p = xs ∧ (xs ++ ys).dropWhile p = ys := by
  induction xs with
  | nil =>
    rw [List.nil_append]
    cases ys with
    | nil => exact ⟨rfl, rfl⟩
    | cons y t =>
      have hpy := hy y (by simp)
      refine ⟨?_, ?_⟩ <;> simp [List.takeWhile_cons, List.dropWhile_cons, hpy]
  | cons x t ih =>
    have hpx := hx x (by simp)
    have h2 := ih (fun a ha => hx a (by simp [ha]))
    refine ⟨?_, ?_⟩ <;>
      simp [List.takeWhile_cons, List.dropWhile_cons, hpx, h2.1, h2.2]

theorem dedupSeg_all_eq {rowOf : Nat → Nat} {b : Nat} {seg rest : List Nat}
    (h : ∀ e ∈ seg, rowOf e = b) :
    dedupSeg rowOf (b : Int) (seg ++ rest) = dedupSeg rowOf (b : Int) rest := by
  induction seg with
  | nil => rfl
  | cons e t ih =>
    have he := h e (by simp)
    rw [List.cons_append]
    simp only [dedupSeg, he]
    rw [if_neg (by simp)]
    exact ih (fun a ha => h a (by simp [ha]))

theorem dedupSeg_block {rowOf : Nat → Nat} {b : Nat} {seg rest : List Nat} {jprev : Int}
    (h : ∀ e ∈ seg, rowOf e = b) (hne : seg ≠ []) (hj : jprev ≠ (b : Int)) :
    dedupSeg rowOf jprev (seg ++ rest) = b :: dedupSeg rowOf (b : Int) rest := by
  cases seg with
  | nil => exact absurd rfl hne
  | cons e t =>
    have he := h e (by simp)
    rw [List.cons_append]
    simp only [dedupSeg, he]
    rw [if_pos (Ne.symm hj)]
    rw [dedupSeg_all_eq (fun a ha => h a (by simp [ha]))]

theorem dedupSeg_flatMap {rowOf : Nat → Nat} {Blk : Nat → List Nat} :
    ∀ (bs : List Nat) (jprev : Int),
      (∀ b ∈ bs, ∀ e ∈ Blk b, rowOf e = b) →
      (∀ b ∈ bs, jprev < (b : Int)) →
      bs.Pairwise (· < ·) →
      dedupSeg rowOf jprev (bs.flatMap Blk)
        = bs.filter (fun b => decide (Blk b ≠ [])) := by
  intro bs
  induction bs with
  | nil => intro jprev _ _ _; rfl
  | cons b bs ih =>
    intro jprev hB hj hp
    rw [List.flatMap_cons, List.filter_cons]
    have hpb := List.pairwise_cons.mp hp
    by_cases hemp : Blk b = []
    · rw [hemp, List.nil_append, if_neg (by simp [hemp])]
      exact ih jprev (fun c hc e he => hB c (by simp [hc]) e he)
        (fun c hc => hj c (by simp [hc])) hpb.2
    · rw [dedupSeg_block (hB b (by simp)) hemp (ne_of_lt (hj b (by simp))),
        if_pos (by simp [hemp])]
      rw [ih (b : Int) (fun c hc e he => hB c (by simp [hc]) e he)
        (fun c hc => by exact_mod_cast hpb.1 c hc) hpb.2]

theorem colsLoop_spec {colOf rowOf : Nat → Nat} {S : Nat → List Nat} :
    ∀ (cols : List Nat),
      (∀ c ∈ cols, ∀ e ∈ S c, colOf e = c) →
      cols.Nodup →
      colsLoop colOf rowOf cols (cols.flatMap S)
        = (cols.flatMap (fun c => dedupSeg rowOf (-1) (S c)),
           (List.range cols.length).map (fun j =>
             ((cols.take (j + 1)).map
               (fun c => (dedupSeg rowOf (-1) (S c)).length)).sum)) := by
  intro cols
  induction cols with
  | nil => intro _ _; rfl
  | cons i is ih =>
    intro hS hnd
    have hnd2 := List.nodup_cons.mp hnd
    rw [List.flatMap_cons]
    simp only [colsLoop]
    have hx : ∀ x ∈ S i, (fun e => decide (colOf e = i)) x = true := by
      intro x hxm
      simp [hS i (by simp) x hxm]
    have hy : ∀ y ∈ is.flatMap S, (fun e => decide (colOf e = i)) y = false := by
      intro y hym
      obtain ⟨c, hc, hyc⟩ := List.mem_flatMap.mp hym
      have hcy := hS c (by simp [hc]) y hyc
      have hci : c ≠ i := fun hcontra => hnd2.1 (hcontra ▸ hc)
      simp [hcy, hci]
    have htw := takeWhile_all_none hx hy
    rw [htw.1, htw.2, ih (fun c hc e he => hS c (by simp [hc]) e he) hnd2.2]
    rw [Prod.mk.injEq]
    constructor
    · rw [List.flatMap_cons]
    · rw [List.length_cons, List.range_succ_eq_map, List.map_cons, List.map_map,
        List.map_map]
      rw [List.take_succ_cons]
      simp only [List.map_cons, List.sum_cons, List.take_zero, List.map_nil,
        List.sum_nil, Nat.add_zero]
      congr 1
      apply List.map_congr_left
      intro j hj
      simp only [Function.comp]
      rw [List.take_succ_cons, List.map_cons, List.sum_cons]
      omega

theorem perfOrd_absorb (tl : List (Nat × Nat)) :
    ∀ c r : Int, (tl.foldl
      (fun st p =>
        (st.1 && (decide ((p.1 : Int) < st.2.1) ||
          (decide ((p.1 : Int) = st.2.1) && decide ((p.2 : Int) ≤ st.2.2))),
         ((p.1 : Int), (p.2 : Int))))
      (false, c, r)).1 = false := by
  induction tl with
  | nil => intro c r; rfl
  | cons q tq ih =>
    intro c r
    rw [List.foldl_cons]
    simp only [Bool.false_and]
    exact ih _ _

theorem perfectlyOrdered_eq_false {row col : List Nat} (h : col.zip row ≠ []) :
    perfectlyOrdered row col = false := by
  unfold perfectlyOrdered
  cases hz : col.zip row with
  | nil => exact absurd hz h
  | cons p tl =>
    rw [List.foldl_cons]
    have hlt : ¬((p.1 : Int) < (-1 : Int)) := by omega
    have heq : ¬((p.1 : Int) = (-1 : Int)) := by omega
    simp only [decide_eq_false hlt, decide_eq_false heq, Bool.false_or,
      Bool.false_and, Bool.and_false]
    exact perfOrd_absorb tl _ _

theorem fastColind_nil (ncol : Nat) : fastColind [] ncol = 0 :: List.replicate ncol 0 := by
  unfold fastColind
  have aux : ∀ n (st : List Nat × Nat),
      ((List.range n).foldl
        (fun (st : List Nat × Nat) i =>
          let el := st.2 + ((([] : List Nat).drop st.2).takeWhile
            (fun c => decide (c = i))).length
          (st.1 ++ [el], el)) st)
      = (st.1 ++ List.replicate n st.2, st.2) := by
    intro n
    induction n with
    | zero => intro st; simp
    | succ m ih =>
      intro st
      rw [List.range_succ, List.foldl_append, ih st]
      simp [List.replicate_succ']
  rw [aux ncol ([0], 0)]
  simp

theorem mem_zip_iff {row col : List Nat} (hlen : row.length = col.length) {r c : Nat} :
    (r, c) ∈ row.zip col
      ↔ ∃ k, k < row.length ∧ row.getD k 0 = r ∧ col.getD k 0 = c := by
  rw [List.mem_iff_getElem]
  constructor
  · rintro ⟨k, hk, he⟩
    have hkr : k < row.length := by rw [List.length_zip] at hk; omega
    have hkc : k < col.length := by rw [List.length_zip] at hk; omega
    rw [List.getElem_zip] at he
    injection he with h1 h2
    refine ⟨k, hkr, ?_, ?_⟩
    · rw [List.getD_eq_getElem _ _ hkr, h1]
    · rw [List.getD_eq_getElem _ _ hkc, h2]
  · rintro ⟨k, hk, h1, h2⟩
    have hkc : k < col.length := by omega
    refine ⟨k, by rw [List.length_zip]; omega, ?_⟩
    rw [List.getElem_zip]
    rw [List.getD_eq_getElem _ _ hk] at h1
    rw [List.getD_eq_getElem _ _ hkc] at h2
    rw [h1, h2]

/-! ## Structure of the canonical compressed form -/

theorem canonical_fst (nrow ncol : Nat) (pairs : List (Nat × Nat)) :
    (canonicalArrays nrow ncol pairs).1 = (List.range (ncol + 1)).map (fun c =>
      (((List.range c).map (fun i =>
        ((List.range nrow).filter (fun r => decide ((r, i) ∈ pairs))).length)).sum)) := rfl

theorem canonical_snd (nrow ncol : Nat) (pairs : List (Nat × Nat)) :
    (canonicalArrays nrow ncol pairs).2 = (List.range ncol).flatMap (fun c =>
      (List.range nrow).filter (fun r => decide ((r, c) ∈ pairs))) := rfl

theorem canonical_colind_getD {nrow ncol : Nat} {pairs : List (Nat × Nat)} {c : Nat}
    (hc : c ≤ ncol) :
    (canonicalArrays nrow ncol pairs).1.getD c 0
      = ((List.range c).map (fun i =>
          ((List.range nrow).filter (fun r => decide ((r, i) ∈ pairs))).length)).sum := by
  rw [canonical_fst]
  exact getD_map_range _ (by omega)

theorem flatMap_drop_take (f : Nat → List Nat) (c n : Nat) (hc : c < n) :
    ((((List.range n).flatMap f).drop
        (((List.range c).map (fun i => (f i).length)).sum)).take (f c).length) = f c := by
  rw [show n = (c + 1) + (n - (c + 1)) by omega, List.range_add, List.flatMap_append,
    List.range_succ, List.flatMap_append]
  simp only [List.flatMap_cons, List.flatMap_nil, List.append_nil]
  have hlen : ((List.range c).flatMap f).length
      = ((List.range c).map (fun i => (f i).length)).sum := by
    rw [List.length_flatMap]
    rfl
  rw [List.append_assoc, List.drop_left' hlen]
  exact List.take_left' rfl

theorem canonical_slice {nrow ncol : Nat} {pairs : List (Nat × Nat)} {c : Nat}
    (hc : c < ncol) :
    colSliceA (canonicalArrays nrow ncol pairs).1 (canonicalArrays nrow ncol pairs).2 c
      = (List.range nrow).filter (fun r => decide ((r, c) ∈ pairs)) := by
  unfold colSliceA
  rw [canonical_colind_getD (by omega), canonical_colind_getD (by omega), canonical_snd,
    range_map_sum_succ]
  rw [show (((List.range c).map (fun i =>
      ((List.range nrow).filter (fun r => decide ((r, i) ∈ pairs))).length)).sum
      + ((List.range nrow).filter (fun r => decide ((r, c) ∈ pairs))).length)
      - ((List.range c).map (fun i =>
        ((List.range nrow).filter (fun r => decide ((r, i) ∈ pairs))).length)).sum
    = ((List.range nrow).filter (fun r => decide ((r, c) ∈ pairs))).length by omega]
  exact flatMap_drop_take
    (fun c => (List.range nrow).filter (fun r => decide ((r, c) ∈ pairs))) c ncol hc

theorem canonical_valid (nrow ncol : Nat) (pairs : List (Nat × Nat)) :
    validArr nrow ncol (canonicalArrays nrow ncol pairs).1 (canonicalArrays nrow ncol pairs).2
      = true := by
  simp only [validArr, Bool.and_eq_true, beq_iff_eq, List.all_eq_true, List.mem_range,
    decide_eq_true_eq]
  refine ⟨⟨⟨⟨?_, ?_⟩, ?_⟩, ?_⟩, ?_⟩
  · rw [canonical_fst]
    simp
  · rw [canonical_colind_getD (by omega)]
    simp
  · intro c hc
    rw [canonical_colind_getD (by omega), canonical_colind_getD (by omega),
      range_map_sum_succ]
    omega
  · rw [canonical_colind_getD (le_refl ncol), canonical_snd, List.length_flatMap]
    rfl
  · intro c hc
    rw [canonical_slice hc]
    refine ⟨?_, ?_⟩
    · exact strictIncrB_iff.mpr ((List.pairwise_lt_range nrow).filter _).chain'
    · intro r hr
      exact List.mem_range.mp (List.mem_filter.mp hr).1

theorem canonical_congr {nrow ncol : Nat} {P1 P2 : List (Nat × Nat)}
    (h : ∀ r < nrow, ∀ c < ncol, ((r, c) ∈ P1 ↔ (r, c) ∈ P2)) :
    canonicalArrays nrow ncol P1 = canonicalArrays nrow ncol P2 := by
  unfold canonicalArrays
  rw [Prod.mk.injEq]
  refine ⟨?_, ?_⟩
  · apply List.map_congr_left
    intro c hc
    have hc2 := List.mem_range.mp hc
    have hpt : ∀ i ∈ List.range c,
        ((List.range nrow).filter (fun r => decide ((r, i) ∈ P1))).length
          = ((List.range nrow).filter (fun r => decide ((r, i) ∈ P2))).length := by
      intro i hi
      have hi2 : i < ncol := by
        have := List.mem_range.mp hi
        omega
      have hfe : (List.range nrow).filter (fun r => decide ((r, i) ∈ P1))
          = (List.range nrow).filter (fun r => decide ((r, i) ∈ P2)) := by
        apply List.filter_congr
        intro r hr
        exact decide_eq_decide.mpr (h r (List.mem_range.mp hr) i hi2)
      rw [hfe]
    rw [List.map_congr_left hpt]
  · apply flatMap_congr_fn
    intro c hc
    apply List.filter_congr
    intro r hr
    exact decide_eq_decide.mpr (h r (List.mem_range.mp hr) c (List.mem_range.mp hc))

theorem canonical_empty (nrow ncol : Nat) :
    canonicalArrays nrow ncol ([] : List (Nat × Nat))
      = (0 :: List.replicate ncol 0, []) := by
  unfold canonicalArrays
  rw [Prod.mk.injEq]
  refine ⟨?_, ?_⟩
  · apply List.ext_getElem (by simp)
    intro i h1 h2
    rw [List.getElem_map, List.getElem_range]
    have hmap : (List.range i).map (fun j =>
        ((List.range nrow).filter (fun r =>
          decide ((r, j) ∈ ([] : List (Nat × Nat))))).length)
        = (List.range i).map (fun _ => 0) :=
      List.map_congr_left (by intro j _; simp)
    rw [hmap]
    have hsum : ((List.range i).map (fun _ => (0 : Nat))).sum = 0 := by simp
    rw [hsum]
    cases i with
    | zero => rfl
    | succ j =>
      rw [List.getElem_cons_succ, List.getElem_replicate]
  · simp

theorem tripletArrays_eq_canonical {nrow ncol : Nat} {row col : List Nat}
    (hlen : row.length = col.length) (hcb : ∀ x ∈ col, x < ncol)
    (hrb : ∀ x ∈ row, x < nrow) :
    tripletArrays nrow ncol row col = some (canonicalArrays nrow ncol (row.zip col)) := by
  unfold tripletArrays
  rw [if_pos ⟨hlen, hcb, hrb⟩]
  by_cases hemp : row = []
  · have hcol : col = [] := by
      cases col with
      | nil => rfl
      | cons c t =>
        rw [hemp] at hlen
        simp at hlen
    subst hemp
    subst hcol
    rw [if_pos (by rfl)]
    have hz : (List.zip ([] : List Nat) ([] : List Nat)) = ([] : List (Nat × Nat)) := rfl
    rw [fastColind_nil, hz, canonical_empty]
  · have hzne : col.zip row ≠ [] := by
      cases row with
      | nil => exact absurd rfl hemp
      | cons r rt =>
        cases col with
        | nil => simp at hlen
        | cons c ct => simp
    rw [if_neg (by simp [perfectlyOrdered_eq_false hzne])]
    have hm2 : countingSort (fun k => row.getD k 0) nrow (List.range row.length)
        = (List.range nrow).flatMap (fun b =>
            (List.range row.length).filter (fun x => decide (row.getD x 0 = b))) := by
      apply countingSort_eq_flatMap
      intro x hx
      have hxl : x < row.length := List.mem_range.mp hx
      rw [List.getD_eq_getElem _ _ hxl]
      exact hrb _ (List.getElem_mem _)
    have hm2b : ∀ x ∈ countingSort (fun k => row.getD k 0) nrow (List.range row.length),
        x < row.length := by
      intro x hx
      rw [hm2] at hx
      obtain ⟨b, -, hx2⟩ := List.mem_flatMap.mp hx
      exact List.mem_range.mp (List.mem_filter.mp hx2).1
    have hm1 : countingSort (fun k => col.getD k 0) ncol
        (countingSort (fun k => row.getD k 0) nrow (List.range row.length))
        = (List.range ncol).flatMap (fun c =>
            (countingSort (fun k => row.getD k 0) nrow (List.range row.length)).filter
              (fun x => decide (col.getD x 0 = c))) := by
      apply countingSort_eq_flatMap
      intro x hx
      have hxl : x < col.length := by
        have := hm2b x hx
        omega
      rw [List.getD_eq_getElem _ _ hxl]
      exact hcb _ (List.getElem_mem _)
    have hS : ∀ c, (countingSort (fun k => row.getD k 0) nrow
          (List.range row.length)).filter (fun x => decide (col.getD x 0 = c))
        = (List.range nrow).flatMap (fun b => (List.range row.length).filter
            (fun x => decide (col.getD x 0 = c) && decide (row.getD x 0 = b))) := by
      intro c
      rw [hm2, List.filter_flatMap]
      apply flatMap_congr_fn
      intro b _
      rw [List.filter_filter]
    have hScol : ∀ c ∈ List.range ncol, ∀ e ∈ (List.range nrow).flatMap
        (fun b => (List.range row.length).filter
          (fun x => decide (col.getD x 0 = c) && decide (row.getD x 0 = b))),
        (fun k => col.getD k 0) e = c := by
      intro c _ e he
      obtain ⟨b, -, he2⟩ := List.mem_flatMap.mp he
      have h3 := (List.mem_filter.mp he2).2
      rw [Bool.and_eq_true, decide_eq_true_eq, decide_eq_true_eq] at h3
      exact h3.1
    have hcl := @colsLoop_spec (fun k => col.getD k 0) (fun k => row.getD k 0)
      (fun c => (List.range nrow).flatMap (fun b => (List.range row.length).filter
        (fun x => decide (col.getD x 0 = c) && decide (row.getD x 0 = b))))
      (List.range ncol) hScol (List.nodup_range ncol)
    have hdedup : ∀ c, dedupSeg (fun k => row.getD k 0) (-1)
        ((List.range nrow).flatMap (fun b => (List.range row.length).filter
          (fun x => decide (col.getD x 0 = c) && decide (row.getD x 0 = b))))
        = (List.range nrow).filter (fun b => decide ((List.range row.length).filter
            (fun x => decide (col.getD x 0 = c) && decide (row.getD x 0 = b)) ≠ [])) := by
      intro c
      apply dedupSeg_flatMap
      · intro b _ e he
        have h3 := (List.mem_filter.mp he).2
        rw [Bool.and_eq_true, decide_eq_true_eq, decide_eq_true_eq] at h3
        exact h3.2
      · intro b _
        omega
      · exact List.pairwise_lt_range nrow
    have hmem : ∀ b c, ((List.range row.length).filter
        (fun x => decide (col.getD x 0 = c) && decide (row.getD x 0 = b)) ≠ [])
        ↔ ((b, c) ∈ row.zip col) := by
      intro b c
      rw [mem_zip_iff hlen]
      constructor
      · intro hne
        obtain ⟨x, hx⟩ := List.exists_mem_of_ne_nil _ hne
        have h1 := List.mem_filter.mp hx
        rw [Bool.and_eq_true, decide_eq_true_eq, decide_eq_true_eq] at h1
        exact ⟨x, List.mem_range.mp h1.1, h1.2.2, h1.2.1⟩
      · rintro ⟨k, hk, h1, h2⟩
        intro hnil
        have hkmem : k ∈ (List.range row.length).filter
            (fun x => decide (col.getD x 0 = c) && decide (row.getD x 0 = b)) := by
          rw [List.mem_filter]
          refine ⟨List.mem_range.mpr hk, ?_⟩
          rw [Bool.and_eq_true, decide_eq_true_eq, decide_eq_true_eq]
          exact ⟨h2, h1⟩
        rw [hnil] at hkmem
        exact absurd hkmem (List.not_mem_nil k)
    have hfilter_eq : ∀ c, (List.range nrow).filter (fun b =>
          decide ((List.range row.length).filter
            (fun x => decide (col.getD x 0 = c) && decide (row.getD x 0 = b)) ≠ []))
        = (List.range nrow).filter (fun r => decide ((r, c) ∈ row.zip col)) := by
      intro c
      apply List.filter_congr
      intro b _
      exact decide_eq_decide.mpr (hmem b c)
    show some (0 :: (colsLoop (fun k => col.getD k 0) (fun k => row.getD k 0)
        (List.range ncol)
        (countingSort (fun k => col.getD k 0) ncol
          (countingSort (fun k => row.getD k 0) nrow (List.range row.length)))).2,
      (colsLoop (fun k => col.getD k 0) (fun k => row.getD k 0) (List.range ncol)
        (countingSort (fun k => col.getD k 0) ncol
          (countingSort (fun k => row.getD k 0) nrow (List.range row.length)))).1)
      = some (canonicalArrays nrow ncol (row.zip col))
    rw [hm1]
    rw [show (List.range ncol).flatMap (fun c =>
        (countingSort (fun k => row.getD k 0) nrow (List.range row.length)).filter
          (fun x => decide (col.getD x 0 = c)))
      = (List.range ncol).flatMap (fun c => (List.range nrow).flatMap
          (fun b => (List.range row.length).filter
            (fun x => decide (col.getD x 0 = c) && decide (row.getD x 0 = b))))
      from flatMap_congr_fn (fun c _ => hS c)]
    rw [hcl]
    refine congrArg some ?_
    rw [Prod.mk.injEq]
    refine ⟨?_, ?_⟩
    · show 0 :: (List.range (List.range ncol).length).map (fun j =>
          (((List.range ncol).take (j + 1)).map
            (fun c => (dedupSeg (fun k => row.getD k 0) (-1)
              ((List.range nrow).flatMap (fun b => (List.range row.length).filter
                (fun x => decide (col.getD x 0 = c)
                  && decide (row.getD x 0 = b))))).length)).sum)
        = (canonicalArrays nrow ncol (row.zip col)).1
      rw [canonical_fst, List.length_range, List.range_succ_eq_map, List.map_cons,
        List.map_map]
      congr 1
      apply List.map_congr_left
      intro j hj
      have hj2 := List.mem_range.mp hj
      simp only [Function.comp]
      rw [List.take_range, show min (j + 1) ncol = j + 1 by omega]
      have hmq : (List.range (j + 1)).map
          (fun c => (dedupSeg (fun k => row.getD k 0) (-1)
            ((List.range nrow).flatMap (fun b => (List.range row.length).filter
              (fun x => decide (col.getD x 0 = c)
                && decide (row.getD x 0 = b))))).length)
          = (List.range (j + 1)).map (fun i =>
              ((List.range nrow).filter (fun r => decide ((r, i) ∈ row.zip col))).length) :=
        List.map_congr_left (fun c _ => by rw [hdedup c, hfilter_eq c])
      rw [hmq]
    · show (List.range ncol).flatMap (fun c =>
          dedupSeg (fun k => row.getD k 0) (-1)
            ((List.range nrow).flatMap (fun b => (List.range row.length).filter
              (fun x => decide (col.getD x 0 = c) && decide (row.getD x 0 = b)))))
        = (canonicalArrays nrow ncol (row.zip col)).2
      rw [canonical_snd]
      exact flatMap_congr_fn (fun c _ => by rw [hdedup c, hfilter_eq c])

/-- Claim C2: `Sparsity::triplet` depends only on the set of distinct
`(row, col)` pairs.  An input that is unsorted and contains duplicate
pairs and the equivalent sorted, duplicate-free input with the same set
of distinct pairs produce identical `colind`/`row` arrays, and the
common result satisfies the pattern invariant: entries grouped by
column, rows strictly increasing within each column — duplicates
collapse to a single structural entry. -/
theorem triplet_duplicates_collapse {nrow ncol : Nat} {row1 col1 row2 col2 : List Nat}
    (hlen1 : row1.length = col1.length) (hc1 : ∀ x ∈ col1, x < ncol)
    (hr1 : ∀ x ∈ row1, x < nrow)
    (hlen2 : row2.length = col2.length) (hc2 : ∀ x ∈ col2, x < ncol)
    (hr2 : ∀ x ∈ row2, x < nrow)
    (hsorted : strictColRowOrdered row2 col2 = true)
    (hset : ∀ r < nrow, ∀ c < ncol, ((r, c) ∈ row1.zip col1 ↔ (r, c) ∈ row2.zip col2)) :
    ∃ colind rrow,
      tripletArrays nrow ncol row1 col1 = some (colind, rrow) ∧
      tripletArrays nrow ncol row2 col2 = some (colind, rrow) ∧
      validArr nrow ncol colind rrow = true := by
  refine ⟨(canonicalArrays nrow ncol (row1.zip col1)).1,
    (canonicalArrays nrow ncol (row1.zip col1)).2, ?_, ?_, ?_⟩
  · rw [tripletArrays_eq_canonical hlen1 hc1 hr1]
  · rw [tripletArrays_eq_canonical hlen2 hc2 hr2, canonical_congr hset]
  · exact canonical_valid nrow ncol (row1.zip col1)

theorem triplet_duplicates_collapse_witness :
    strictColRowOrdered [0, 1] [0, 1] = true ∧
    (∃ colind rrow,
      tripletArrays 2 2 [1, 0, 1] [1, 0, 1] = some (colind, rrow) ∧
      tripletArrays 2 2 [0, 1] [0, 1] = some (colind, rrow) ∧
      validArr 2 2 colind rrow = true) :=
  ⟨by decide, triplet_duplicates_collapse (by decide) (by decide) (by decide) (by decide)
    (by decide) (by decide) (by decide) (by decide)⟩

/-- Claim C3 (refuted): the `perfectly_ordered` detection of
`Sparsity::triplet` (lines 929-941) never fires on a nonempty input,
sorted and duplicate-free or not.  The conjoined per-entry test
`col[k]<last_col || (col[k]==last_col && row[k]<=last_row)`, started
from `last_col = last_row = -1`, is the negation of the ascending
comparison the surrounding comments describe, so the very first entry
drives the flag to `false`: the fast path that would copy the row list
directly is never taken and the general bucket sort runs instead. -/
theorem triplet_fast_path_never_detected {row col : List Nat}
    (hsorted : strictColRowOrdered row col = true) (hne : col.zip row ≠ []) :
    perfectlyOrdered row col = false :=
  perfectlyOrdered_eq_false hne

theorem triplet_fast_path_never_detected_witness :
    strictColRowOrdered [0, 1] [0, 1] = true ∧ perfectlyOrdered [0, 1] [0, 1] = false :=
  ⟨by decide, triplet_fast_path_never_detected (by decide) (by decide)⟩

/-! ## Concatenation and splitting: toolkit -/

theorem zip_map_fst_snd {α β : Type} (l : List (α × β)) :
    (l.map Prod.fst).zip (l.map Prod.snd) = l := by
  induction l with
  | nil => rfl
  | cons a t ih => simp [ih]

theorem sorted_bounded_filter_range {l : List Nat} {n : Nat}
    (hp : l.Pairwise (· < ·)) (hb : ∀ x ∈ l, x < n) :
    (List.range n).filter (fun r => decide (r ∈ l)) = l := by
  have hnd1 : ((List.range n).filter (fun r => decide (r ∈ l))).Nodup :=
    (List.nodup_range n).filter _
  have hnd2 : l.Nodup := hp.imp Nat.ne_of_lt
  have hperm : List.Perm ((List.range n).filter (fun r => decide (r ∈ l))) l := by
    apply List.perm_of_nodup_nodup_toFinset_eq hnd1 hnd2
    ext a
    simp only [List.mem_toFinset, List.mem_filter, List.mem_range, decide_eq_true_eq]
    exact ⟨fun h => h.2, fun h => ⟨hb a h, h⟩⟩
  exact List.eq_of_perm_of_sorted hperm
    (((List.pairwise_lt_range n).filter _).imp Nat.le_of_lt) (hp.imp Nat.le_of_lt)

theorem mem_patTriplets {p : Pattern} {off r c : Nat} :
    (r, c) ∈ patTriplets p off
      ↔ ∃ cc, cc < p.ncol ∧ c = cc + off ∧ r ∈ colSliceA p.colind p.row cc := by
  unfold patTriplets
  rw [List.mem_flatMap]
  constructor
  · rintro ⟨cc, hcc, hm⟩
    obtain ⟨rr, hrr, heq⟩ := List.mem_map.mp hm
    injection heq with h1 h2
    exact ⟨cc, List.mem_range.mp hcc, h2.symm, h1 ▸ hrr⟩
  · rintro ⟨cc, hcc, hc, hr⟩
    exact ⟨cc, List.mem_range.mpr hcc, List.mem_map.mpr ⟨r, hr, by rw [hc]⟩⟩

theorem flatMap_of_map {l : List Nat} {g : Nat → Nat} {f : Nat → List Nat} :
    (l.map g).flatMap f = l.flatMap (fun x => f (g x)) := by
  induction l with
  | nil => rfl
  | cons a t ih => simp [ih]

theorem valid_colind_sum {nrow ncol : Nat} {colind row : List Nat}
    (h : validArr nrow ncol colind row = true) :
    ∀ c, c ≤ ncol → ((List.range c).map (fun i => (colSliceA colind row i).length)).sum
      = colind.getD c 0 := by
  intro c
  induction c with
  | zero =>
    intro _
    obtain ⟨-, h0, -, -, -⟩ := validArr_decomp h
    rw [h0]
    simp
  | succ m ih =>
    intro hm
    rw [range_map_sum_succ, ih (by omega), valid_slice_length h (by omega)]
    have hmono := valid_colind_mono h m (m + 1) (by omega) hm
    omega

theorem getD_append_right {l₁ l₂ : List Nat} {n : Nat} (h : l₁.length ≤ n) :
    (l₁ ++ l₂).getD n 0 = l₂.getD (n - l₁.length) 0 := by
  rw [List.getD_eq_getElem?_getD, List.getD_eq_getElem?_getD,
    List.getElem?_append_right h]

theorem cons_zero_drop_one {l : List Nat} (hne : l ≠ []) (h0 : l.getD 0 0 = 0) :
    0 :: l.drop 1 = l := by
  cases l with
  | nil => exact absurd rfl hne
  | cons x t =>
    rw [List.getD_cons_zero] at h0
    show 0 :: t = x :: t
    rw [h0]

theorem drop_pred_singleton {l : List Nat} {n : Nat} (hlen : l.length = n + 1) :
    l.drop n = [l.getD n 0] := by
  rw [List.drop_eq_getElem_cons (by omega), List.drop_eq_nil_of_le (by omega),
    List.getD_eq_getElem _ _ (by omega)]

theorem horzcat_pair {A B : Pattern} (hA : validPat A = true) (hB : validPat B = true)
    (hrow : A.nrow = B.nrow) :
    horzcat [A, B] = some ⟨A.nrow, A.ncol + B.ncol,
      A.colind ++ (B.colind.drop 1).map (fun v => v + nnzP A), A.row ++ B.row⟩ := by
  have hvA : validArr A.nrow A.ncol A.colind A.row = true := hA
  have hvB : validArr B.nrow B.ncol B.colind B.row = true := hB
  obtain ⟨hlA, h0A, -, hrlA, -⟩ := validArr_decomp hvA
  obtain ⟨hlB, h0B, -, hrlB, -⟩ := validArr_decomp hvB
  show (if ∀ p ∈ [A, B], p.nrow
        = ((([A, B].find? (fun p => decide (p.nrow ≠ 0))).map Pattern.nrow).getD 0)
        ∨ p.nrow = 0 then
      (tripletArrays ((([A, B].find? (fun p => decide (p.nrow ≠ 0))).map Pattern.nrow).getD 0)
        (([A, B].map Pattern.ncol).sum)
        ((horzcatTrips [A, B] 0).map Prod.fst)
        ((horzcatTrips [A, B] 0).map Prod.snd)).map
        (fun rc =>
          (⟨((([A, B].find? (fun p => decide (p.nrow ≠ 0))).map Pattern.nrow).getD 0),
            (([A, B].map Pattern.ncol).sum), rc.1, rc.2⟩ : Pattern))
    else none)
    = some ⟨A.nrow, A.ncol + B.ncol,
        A.colind ++ (B.colind.drop 1).map (fun v => v + nnzP A), A.row ++ B.row⟩
  have hret : ((([A, B].find? (fun p => decide (p.nrow ≠ 0))).map Pattern.nrow).getD 0)
      = A.nrow := by
    by_cases h0 : A.nrow = 0
    · have hB0 : B.nrow = 0 := by omega
      rw [List.find?_cons_of_neg _ (by simp [h0]), List.find?_cons_of_neg _ (by simp [hB0]),
        h0]
      rfl
    · rw [List.find?_cons_of_pos _ (by simp [h0])]
      rfl
  have hncol : ([A, B].map Pattern.ncol).sum = A.ncol + B.ncol := by simp
  rw [hret, hncol]
  rw [if_pos (by
    intro p hp
    rw [List.mem_cons, List.mem_cons] at hp
    rcases hp with h | h | h
    · rw [h]
      left
      rfl
    · rw [h]
      left
      omega
    · exact absurd h (List.not_mem_nil p))]
  have htr : horzcatTrips [A, B] 0 = patTriplets A 0 ++ patTriplets B A.ncol := by
    show patTriplets A 0 ++ (patTriplets B (0 + A.ncol) ++ []) = _
    rw [Nat.zero_add, List.append_nil]
  have hlen : ((horzcatTrips [A, B] 0).map Prod.fst).length
      = ((horzcatTrips [A, B] 0).map Prod.snd).length := by simp
  have hcb : ∀ x ∈ (horzcatTrips [A, B] 0).map Prod.snd, x < A.ncol + B.ncol := by
    intro x hx
    obtain ⟨pr, hpr, hx2⟩ := List.mem_map.mp hx
    rw [htr, List.mem_append] at hpr
    rcases hpr with h | h
    · obtain ⟨cc, hcc, hceq, -⟩ := mem_patTriplets.mp h
      omega
    · obtain ⟨cc, hcc, hceq, -⟩ := mem_patTriplets.mp h
      omega
  have hrb : ∀ x ∈ (horzcatTrips [A, B] 0).map Prod.fst, x < A.nrow := by
    intro x hx
    obtain ⟨pr, hpr, hx2⟩ := List.mem_map.mp hx
    rw [htr, List.mem_append] at hpr
    rcases hpr with h | h
    · obtain ⟨cc, hcc, -, hrm⟩ := mem_patTriplets.mp h
      have := (valid_slice_sorted hvA hcc).2 pr.1 hrm
      omega
    · obtain ⟨cc, hcc, -, hrm⟩ := mem_patTriplets.mp h
      have := (valid_slice_sorted hvB hcc).2 pr.1 hrm
      omega
  rw [tripletArrays_eq_canonical hlen hcb hrb, zip_map_fst_snd]
  show some (⟨A.nrow, A.ncol + B.ncol,
      (canonicalArrays A.nrow (A.ncol + B.ncol) (horzcatTrips [A, B] 0)).1,
      (canonicalArrays A.nrow (A.ncol + B.ncol) (horzcatTrips [A, B] 0)).2⟩ : Pattern)
    = some ⟨A.nrow, A.ncol + B.ncol,
        A.colind ++ (B.colind.drop 1).map (fun v => v + nnzP A), A.row ++ B.row⟩
  refine congrArg some ?_
  have hfA : ∀ c, c < A.ncol → (List.range A.nrow).filter
      (fun r => decide ((r, c) ∈ horzcatTrips [A, B] 0)) = colSliceA A.colind A.row c := by
    intro c hc
    have hiff : ∀ r, ((r, c) ∈ horzcatTrips [A, B] 0 ↔ r ∈ colSliceA A.colind A.row c) := by
      intro r
      rw [htr, List.mem_append, mem_patTriplets, mem_patTriplets]
      constructor
      · rintro (⟨cc, hcc, hceq, hrm⟩ | ⟨cc, hcc, hceq, hrm⟩)
        · have hcceq : cc = c := by omega
          rw [← hcceq]
          exact hrm
        · omega
      · intro hr
        exact Or.inl ⟨c, hc, by omega, hr⟩
    rw [List.filter_congr (fun r _ => decide_eq_decide.mpr (hiff r))]
    exact sorted_bounded_filter_range (valid_slice_sorted hvA hc).1
      (valid_slice_sorted hvA hc).2
  have hfB : ∀ c, c < B.ncol → (List.range A.nrow).filter
      (fun r => decide ((r, A.ncol + c) ∈ horzcatTrips [A, B] 0))
      = colSliceA B.colind B.row c := by
    intro c hc
    have hiff : ∀ r, ((r, A.ncol + c) ∈ horzcatTrips [A, B] 0
        ↔ r ∈ colSliceA B.colind B.row c) := by
      intro r
      rw [htr, List.mem_append, mem_patTriplets, mem_patTriplets]
      constructor
      · rintro (⟨cc, hcc, hceq, hrm⟩ | ⟨cc, hcc, hceq, hrm⟩)
        · omega
        · have hcceq : cc = c := by omega
          rw [← hcceq]
          exact hrm
      · intro hr
        exact Or.inr ⟨c, hc, by omega, hr⟩
    rw [List.filter_congr (fun r _ => decide_eq_decide.mpr (hiff r))]
    have hbb : ∀ x ∈ colSliceA B.colind B.row c, x < A.nrow := by
      intro x hx
      have := (valid_slice_sorted hvB hc).2 x hx
      omega
    exact sorted_bounded_filter_range (valid_slice_sorted hvB hc).1 hbb
  have hsumA : ∀ c, c ≤ A.ncol → ((List.range c).map (fun j =>
      ((List.range A.nrow).filter (fun r =>
        decide ((r, j) ∈ horzcatTrips [A, B] 0))).length)).sum
      = A.colind.getD c 0 := by
    intro c hc
    have hmc : ∀ j ∈ List.range c,
        ((List.range A.nrow).filter (fun r =>
          decide ((r, j) ∈ horzcatTrips [A, B] 0))).length
        = (colSliceA A.colind A.row j).length := by
      intro j hj
      rw [hfA j (by have := List.mem_range.mp hj; omega)]
    rw [List.map_congr_left hmc]
    exact valid_colind_sum hvA c hc
  have hsumB : ∀ c, c ≤ B.ncol →
      ((List.range (A.ncol + c)).map (fun j =>
        ((List.range A.nrow).filter (fun r =>
          decide ((r, j) ∈ horzcatTrips [A, B] 0))).length)).sum
      = nnzP A + B.colind.getD c 0 := by
    intro c hc
    rw [List.range_add, List.map_append, List.sum_append, hsumA A.ncol (le_refl _),
      List.map_map]
    have hmc : ∀ j ∈ List.range c,
        ((fun j => ((List.range A.nrow).filter (fun r =>
          decide ((r, j) ∈ horzcatTrips [A, B] 0))).length) ∘ (fun x => A.ncol + x)) j
        = (colSliceA B.colind B.row j).length := by
      intro j hj
      show ((List.range A.nrow).filter (fun r =>
        decide ((r, A.ncol + j) ∈ horzcatTrips [A, B] 0))).length
        = (colSliceA B.colind B.row j).length
      rw [hfB j (by have := List.mem_range.mp hj; omega)]
    rw [List.map_congr_left hmc, valid_colind_sum hvB c hc]
    rfl
  rw [Pattern.mk.injEq]
  refine ⟨rfl, rfl, ?_, ?_⟩
  · rw [canonical_fst]
    apply List.ext_getElem
    · rw [List.length_map, List.length_range, List.length_append, List.length_map,
        List.length_drop, hlA, hlB]
      omega
    · intro i hi1 hi2
      have hi1b : i < A.ncol + B.ncol + 1 := by
        rw [List.length_map, List.length_range] at hi1
        omega
      rw [List.getElem_map, List.getElem_range]
      by_cases hia : i ≤ A.ncol
      · rw [List.getElem_append_left (show i < A.colind.length from by omega)]
        rw [hsumA i hia]
        exact List.getD_eq_getElem _ _ (by omega)
      · have hk2 : i - A.ncol ≤ B.ncol := by omega
        rw [List.getElem_append_right (show A.colind.length ≤ i from by omega)]
        rw [List.getElem_map, List.getElem_drop]
        have hL : ((List.range i).map (fun j =>
            ((List.range A.nrow).filter (fun r =>
              decide ((r, j) ∈ horzcatTrips [A, B] 0))).length)).sum
            = nnzP A + B.colind.getD (i - A.ncol) 0 := by
          have h2 := hsumB (i - A.ncol) hk2
          rw [show A.ncol + (i - A.ncol) = i from by omega] at h2
          exact h2
        rw [hL,
          ← List.getD_eq_getElem B.colind 0
            (show 1 + (i - A.colind.length) < B.colind.length from by rw [hlA, hlB]; omega),
          show 1 + (i - A.colind.length) = i - A.ncol from by rw [hlA]; omega]
        exact Nat.add_comm _ _
  · rw [canonical_snd, List.range_add, List.flatMap_append, flatMap_of_map]
    have h1 : (List.range A.ncol).flatMap (fun c => (List.range A.nrow).filter
        (fun r => decide ((r, c) ∈ horzcatTrips [A, B] 0))) = A.row := by
      rw [flatMap_congr_fn (fun c hcm => hfA c (List.mem_range.mp hcm)),
        ← valid_row_flatten hvA]
    have h2 : (List.range B.ncol).flatMap (fun x => (List.range A.nrow).filter
        (fun r => decide ((r, A.ncol + x) ∈ horzcatTrips [A, B] 0))) = B.row := by
      rw [flatMap_congr_fn (fun c hcm => hfB c (List.mem_range.mp hcm)),
        ← valid_row_flatten hvB]
    exact congrArg₂ (· ++ ·) h1 h2

/-- Claim C5: concatenation/split round-trip.  For every pair of valid
patterns `A` and `B` with the same number of rows,
`horzsplit(horzcat([A, B]), [0, A.cols, A.cols + B.cols])` succeeds and
returns exactly the two patterns `A` and `B`, structurally equal. -/
theorem horzcat_horzsplit_roundtrip {A B : Pattern}
    (hA : validPat A = true) (hB : validPat B = true) (hrow : A.nrow = B.nrow) :
    (horzcat [A, B]).bind
      (fun ab => horzsplit ab [0, A.ncol, A.ncol + B.ncol]) = some [A, B] := by
  have hvA : validArr A.nrow A.ncol A.colind A.row = true := hA
  have hvB : validArr B.nrow B.ncol B.colind B.row = true := hB
  obtain ⟨hlA, h0A, -, hrlA, -⟩ := validArr_decomp hvA
  obtain ⟨hlB, h0B, -, hrlB, -⟩ := validArr_decomp hvB
  rw [horzcat_pair hA hB hrow]
  show horzsplit ⟨A.nrow, A.ncol + B.ncol,
      A.colind ++ (B.colind.drop 1).map (fun v => v + nnzP A), A.row ++ B.row⟩
    [0, A.ncol, A.ncol + B.ncol] = some [A, B]
  unfold horzsplit
  rw [if_pos ⟨by simp, rfl, rfl, by simp [isMonotoneB, chainB]⟩]
  refine congrArg some ?_
  have hbase0 : (A.colind ++ (B.colind.drop 1).map (fun v => v + nnzP A)).getD 0 0 = 0 := by
    rw [getD_append_left (by omega)]
    exact h0A
  have hnna : (A.colind ++ (B.colind.drop 1).map (fun v => v + nnzP A)).getD A.ncol 0
      = nnzP A := by
    rw [getD_append_left (by omega)]
    rfl
  have hlast : (A.colind ++ (B.colind.drop 1).map (fun v => v + nnzP A)).getD
      (A.ncol + B.ncol) 0 = nnzP A + nnzP B := by
    by_cases hb0 : B.ncol = 0
    · have hdnil : B.colind.drop 1 = [] := List.drop_eq_nil_of_le (by omega)
      have hnzB : nnzP B = 0 := by
        show B.colind.getD B.ncol 0 = 0
        rw [hb0]
        exact h0B
      rw [hdnil, hb0, Nat.add_zero, hnzB, Nat.add_zero]
      show (A.colind ++ []).getD A.ncol 0 = nnzP A
      rw [List.append_nil]
      rfl
    · rw [getD_append_right (show A.colind.length ≤ A.ncol + B.ncol from by omega)]
      have hbound : A.ncol + B.ncol - A.colind.length
          < ((B.colind.drop 1).map (fun v => v + nnzP A)).length := by
        rw [List.length_map, List.length_drop, hlA, hlB]
        omega
      rw [List.getD_eq_getElem _ _ hbound, List.getElem_map, List.getElem_drop,
        ← List.getD_eq_getElem B.colind 0
          (show 1 + (A.ncol + B.ncol - A.colind.length) < B.colind.length from by
            rw [hlA, hlB]; omega),
        show 1 + (A.ncol + B.ncol - A.colind.length) = B.ncol from by rw [hlA]; omega]
      exact Nat.add_comm _ _
  have hf0 : (⟨A.nrow, A.ncol - 0,
      0 :: ((((A.colind ++ (B.colind.drop 1).map (fun v => v + nnzP A)).drop 0).take
        (A.ncol - 0 + 1)).drop 1).map (fun v =>
          v - (A.colind ++ (B.colind.drop 1).map (fun v => v + nnzP A)).getD 0 0),
      ((A.row ++ B.row).drop
          ((A.colind ++ (B.colind.drop 1).map (fun v => v + nnzP A)).getD 0 0)).take
        ((A.colind ++ (B.colind.drop 1).map (fun v => v + nnzP A)).getD A.ncol 0
          - (A.colind ++ (B.colind.drop 1).map (fun v => v + nnzP A)).getD 0 0)⟩ : Pattern)
      = A := by
    rw [hbase0, hnna, List.drop_zero, Nat.sub_zero, Nat.sub_zero, List.drop_zero,
      List.take_left' hlA]
    rw [show (fun v : Nat => v - 0) = fun v : Nat => v from funext (fun v => Nat.sub_zero v),
      List.map_id' (A.colind.drop 1)]
    rw [cons_zero_drop_one (by intro hnil; rw [hnil] at hlA; simp at hlA) h0A]
    rw [List.take_left' (show A.row.length = nnzP A from hrlA)]
  have hf1 : (⟨A.nrow, A.ncol + B.ncol - A.ncol,
      0 :: ((((A.colind ++ (B.colind.drop 1).map (fun v => v + nnzP A)).drop A.ncol).take
        (A.ncol + B.ncol - A.ncol + 1)).drop 1).map (fun v =>
          v - (A.colind ++ (B.colind.drop 1).map (fun v => v + nnzP A)).getD A.ncol 0),
      ((A.row ++ B.row).drop
          ((A.colind ++ (B.colind.drop 1).map (fun v => v + nnzP A)).getD A.ncol 0)).take
        ((A.colind ++ (B.colind.drop 1).map (fun v => v + nnzP A)).getD (A.ncol + B.ncol) 0
          - (A.colind ++ (B.colind.drop 1).map (fun v => v + nnzP A)).getD A.ncol 0)⟩
      : Pattern) = B := by
    rw [hnna, hlast, List.drop_append_of_le_length (by omega), drop_pred_singleton hlA]
    rw [show A.colind.getD A.ncol 0 = nnzP A from rfl]
    rw [show ([nnzP A] ++ (B.colind.drop 1).map (fun v => v + nnzP A))
        = nnzP A :: (B.colind.drop 1).map (fun v => v + nnzP A) from rfl]
    rw [show A.ncol + B.ncol - A.ncol + 1 = B.ncol + 1 from by omega]
    rw [List.take_of_length_le (by
      rw [List.length_cons, List.length_map, List.length_drop, hlB]
      omega)]
    rw [show (nnzP A :: (B.colind.drop 1).map (fun v => v + nnzP A)).drop 1
        = (B.colind.drop 1).map (fun v => v + nnzP A) from rfl]
    rw [List.map_map]
    rw [show ((fun v => v - nnzP A) ∘ fun v : Nat => v + nnzP A) = fun v : Nat => v from
      funext (fun v => by show v + nnzP A - nnzP A = v; omega)]
    rw [List.map_id' (B.colind.drop 1)]
    rw [cons_zero_drop_one (by intro hnil; rw [hnil] at hlB; simp at hlB) h0B]
    rw [List.drop_left' (show A.row.length = nnzP A from hrlA)]
    rw [show nnzP A + nnzP B - nnzP A = nnzP B from by omega]
    rw [List.take_of_length_le (show B.row.length ≤ nnzP B from le_of_eq hrlB)]
    rw [Pattern.mk.injEq]
    refine ⟨hrow, by omega, rfl, rfl⟩
  show [(⟨A.nrow, A.ncol - 0,
      0 :: ((((A.colind ++ (B.colind.drop 1).map (fun v => v + nnzP A)).drop 0).take
        (A.ncol - 0 + 1)).drop 1).map (fun v =>
          v - (A.colind ++ (B.colind.drop 1).map (fun v => v + nnzP A)).getD 0 0),
      ((A.row ++ B.row).drop
          ((A.colind ++ (B.colind.drop 1).map (fun v => v + nnzP A)).getD 0 0)).take
        ((A.colind ++ (B.colind.drop 1).map (fun v => v + nnzP A)).getD A.ncol 0
          - (A.colind ++ (B.colind.drop 1).map (fun v => v + nnzP A)).getD 0 0)⟩ : Pattern),
    (⟨A.nrow, A.ncol + B.ncol - A.ncol,
      0 :: ((((A.colind ++ (B.colind.drop 1).map (fun v => v + nnzP A)).drop A.ncol).take
        (A.ncol + B.ncol - A.ncol + 1)).drop 1).map (fun v =>
          v - (A.colind ++ (B.colind.drop 1).map (fun v => v + nnzP A)).getD A.ncol 0),
      ((A.row ++ B.row).drop
          ((A.colind ++ (B.colind.drop 1).map (fun v => v + nnzP A)).getD A.ncol 0)).take
        ((A.colind ++ (B.colind.drop 1).map (fun v => v + nnzP A)).getD (A.ncol + B.ncol) 0
          - (A.colind ++ (B.colind.drop 1).map (fun v => v + nnzP A)).getD A.ncol 0)⟩
      : Pattern)]
    = [A, B]
  rw [hf0, hf1]

theorem horzcat_horzsplit_roundtrip_witness :
    validPat ⟨2, 1, [0, 1], [0]⟩ = true ∧ validPat ⟨2, 2, [0, 0, 2], [0, 1]⟩ = true ∧
    (horzcat [⟨2, 1, [0, 1], [0]⟩, ⟨2, 2, [0, 0, 2], [0, 1]⟩]).bind
      (fun ab => horzsplit ab [0, 1, 1 + 2])
      = some [⟨2, 1, [0, 1], [0]⟩, ⟨2, 2, [0, 0, 2], [0, 1]⟩] :=
  ⟨by decide, by decide, horzcat_horzsplit_roundtrip (by decide) (by decide) (by decide)⟩

end Casadi
